import Mathlib

/-!
# Verification of the TeamClaws multi-agent runtime against its specification

Shallow embedding of the core routines of the `multiclaws` package:

* `multiclaws/roles/cso.py` — security reviewer (regex veto / PII redaction)
* `multiclaws/llm/router.py` — provider fallback and budget enforcement
* `multiclaws/tools/sandbox.py` — `safe_path` containment
* `multiclaws/roles/ceo.py` — react-loop tool gating and two-strike retry
* `multiclaws/core/picoclaw.py` — worker chassis lifecycle
* `multiclaws/memory/store.py` — task queue operations

Python strings are modelled as `List Char`, SQLite rows as structures in
lists (in rowid order), money amounts (`float` dollars) as `ℚ`, and the
`re` regular-expression engine as a fuel-bounded backtracking matcher
`mrun` whose result list is ordered by Python's backtracking priority
(leftmost alternative first, greedy quantifiers longest first).
-/

namespace TeamClaws

/-! ## Regular-expression engine

Model of the parts of Python's `re` used by `multiclaws/roles/cso.py`.
A word character for `\b` is `[A-Za-z0-9_]` (the patterns and the texts
of interest are ASCII, so the Unicode extension of `\w` is irrelevant).
`.` matches anything except a newline (`re.DOTALL` is never set).
-/

/-- Character classes appearing in the CSO patterns. -/
inductive CharCls where
  /-- `\d` and `[0-9]` -/
  | digit
  /-- `\s` -/
  | space
  /-- `.` (anything but newline, `re.DOTALL` unset) -/
  | dot
  /-- a literal character -/
  | lit (c : Char)
  /-- a literal character under `re.I` -/
  | litI (c : Char)
  /-- a set of characters, e.g. `[rf]` -/
  | oneOf (cs : List Char)
  /-- ranges, e.g. `[A-Za-z0-9]` -/
  | ranges (rs : List (Char × Char))
  deriving Repr, DecidableEq

/-- Python `\w` (ASCII fragment): letters, digits, underscore. -/
def isWordChar (c : Char) : Bool :=
  c.isAlphanum || c = '_'

def CharCls.matches : CharCls → Char → Bool
  | .digit, c => c.isDigit
  | .space, c => c = ' ' || c = '\t' || c = '\n' || c = '\r' || c = '\x0b' || c = '\x0c'
  | .dot, c => c ≠ '\n'
  | .lit a, c => c = a
  | .litI a, c => c.toLower = a.toLower
  | .oneOf cs, c => cs.contains c
  | .ranges rs, c => rs.any fun r => r.1 ≤ c && c ≤ r.2

/-- Regular expressions, as used in the CSO pattern lists.  Bounded
repetitions are expanded at pattern-construction time (`{m}` to a chain
of `seq`, `{m,}` to the chain followed by `star`, `{1,2}` to the chain
followed by `opt`). -/
inductive RE where
  | eps
  | cls (k : CharCls)
  | seq (a b : RE)
  | alt (a b : RE)
  /-- `a?`, greedy -/
  | opt (a : RE)
  /-- `a*`, greedy -/
  | star (a : RE)
  /-- `\b` -/
  | wb
  deriving Repr, DecidableEq

/-- Sequence of a list of regexes. -/
def RE.cat : List RE → RE
  | [] => .eps
  | [r] => r
  | r :: rs => .seq r (RE.cat rs)

/-- A literal string. -/
def RE.str (s : List Char) : RE :=
  RE.cat (s.map fun c => RE.cls (.lit c))

/-- A literal string under `re.I`. -/
def RE.strI (s : List Char) : RE :=
  RE.cat (s.map fun c => RE.cls (.litI c))

/-- `k{n}`: exactly `n` repetitions of a class. -/
def RE.repN (k : CharCls) : Nat → RE
  | 0 => .eps
  | n + 1 => .seq (.cls k) (RE.repN k n)

/-- `k{n,}`: at least `n` repetitions of a class, greedy. -/
def RE.repAtLeast (k : CharCls) (n : Nat) : RE :=
  .seq (RE.repN k n) (.star (.cls k))

/-- Word-boundary test between a left context (wordness of the previous
character, `false` at the start of the string) and the rest of the
input. -/
def wbHolds (prevWord : Bool) (s : List Char) : Bool :=
  match s with
  | [] => prevWord
  | c :: _ => prevWord != isWordChar c

/-- All ways to match `r` against a prefix of `s`, in Python's
backtracking priority order.  Each result is the wordness of the last
consumed character (input context if nothing was consumed) together with
the remaining suffix.  The recursion is structural in `fuel` (one unit
per engine node visited), so the kernel can evaluate it; `RE.needed`
below computes a sufficient budget, beyond which the result no longer
changes. -/
def mrun : Nat → RE → Bool → List Char → List (Bool × List Char)
  | 0, _, _, _ => []
  | fuel + 1, r, pw, s =>
    match r with
    | .eps => [(pw, s)]
    | .cls k =>
      match s with
      | [] => []
      | c :: rest => if k.matches c then [(isWordChar c, rest)] else []
    | .seq a b =>
      (mrun fuel a pw s).flatMap fun (pw', s') => mrun fuel b pw' s'
    | .alt a b => mrun fuel a pw s ++ mrun fuel b pw s
    | .opt a => mrun fuel a pw s ++ [(pw, s)]
    | .star a =>
      ((mrun fuel a pw s).filter fun (_, s') => s'.length < s.length).flatMap
        (fun (pw', s') => mrun fuel (.star a) pw' s') ++ [(pw, s)]
    | .wb => if wbHolds pw s then [(pw, s)] else []

/-- Fuel sufficient for the `star` case of `RE.needed`, as a function of
the body's requirement and the remaining string length. -/
def starNeeded (base : Nat → Nat) : Nat → Nat
  | 0 => 1 + base 0
  | n + 1 => 1 + max (base (n + 1)) (starNeeded base n)

/-- A fuel budget sufficient for `mrun` on any string of length `n`
(each `star` iteration consumes at least one character). -/
def RE.needed : RE → Nat → Nat
  | .eps, _ => 1
  | .cls _, _ => 1
  | .wb, _ => 1
  | .seq a b, n => 1 + max (RE.needed a n) (RE.needed b n)
  | .alt a b, n => 1 + max (RE.needed a n) (RE.needed b n)
  | .opt a, n => 1 + RE.needed a n
  | .star a, n => starNeeded (RE.needed a) n

/-- The length of the match Python's engine reports at this position
(head of the priority list), if any. -/
def matchLenAt (r : RE) (pw : Bool) (s : List Char) : Option Nat :=
  match (mrun (r.needed s.length) r pw s).head? with
  | none => none
  | some (_, rem) => some (s.length - rem.length)

/-- `pattern.search(text)` scanning from a given context. -/
def searchFrom (r : RE) (pw : Bool) (s : List Char) : Bool :=
  match s with
  | [] => (matchLenAt r pw []).isSome
  | c :: rest =>
    (matchLenAt r pw s).isSome || searchFrom r (isWordChar c) rest

/-- `pattern.search(text)` on the whole text. -/
def reSearch (r : RE) (s : List Char) : Bool :=
  searchFrom r false s

/-- `pattern.sub(repl, text)`: replace every non-overlapping match,
scanning left to right on the original text.  A (theoretically) empty
match is treated as no match — every CSO pattern only matches nonempty
text.  After a replacement the scan resumes right after the matched
span, with the last matched character as `\b` context (the scan works on
the original text, exactly as Python's `sub` does). -/
def reSub (r : RE) (repl : List Char) (pw : Bool) (s : List Char) : List Char :=
  match h : s with
  | [] => []
  | c :: rest =>
    match matchLenAt r pw s with
    | some (n + 1) =>
      repl ++ reSub r repl (isWordChar (s.getD n ' ')) (s.drop (n + 1))
    | _ => c :: reSub r repl (isWordChar c) rest
termination_by s.length
decreasing_by
  · simp [h]; omega
  · simp [h]

/-! ## CSO security reviewer (`multiclaws/roles/cso.py`)

The reviewer is a pure pattern engine.  The audit write at the end of
`review` goes to the store when one is attached and does not influence
the returned decision, so the embedding models a store-less CSO
(`store=None`), exactly the decision computation of lines 79–124.
-/

/-- `[A-Za-z0-9]` -/
def alnumCls : CharCls := .ranges [('A', 'Z'), ('a', 'z'), ('0', '9')]

/-- `[0-9A-Z]` -/
def upperAlnumCls : CharCls := .ranges [('0', '9'), ('A', 'Z')]

/-- `\s+` -/
def spacePlus : RE := .seq (.cls .space) (.star (.cls .space))

/-- `.*` -/
def dotStar : RE := .star (.cls .dot)

/-- A compiled pattern together with its source text (`pattern.pattern`,
used by the findings messages). -/
structure CompiledPat where
  src : String
  re : RE

/-- `_BLOCK_COMMANDS` of `cso.py`, transcribed pattern by pattern in
list order. -/
def BLOCK_COMMANDS : List CompiledPat := [
  -- rm -rf /
  ⟨"\\brm\\s+-[rf]\x7b1,2\x7d\\s+/",
   .cat [.wb, .str "rm".toList, spacePlus, .cls (.lit '-'),
         .cls (.oneOf ['r', 'f']), .opt (.cls (.oneOf ['r', 'f'])),
         spacePlus, .cls (.lit '/')]⟩,
  -- rmdir /s (Windows), re.I
  ⟨"\\brmdir\\s+/s\\b",
   .cat [.wb, .strI "rmdir".toList, spacePlus, .strI "/s".toList, .wb]⟩,
  -- disk wipe
  ⟨"\\b(dd|shred)\\b.*\\b/dev/",
   .cat [.wb, .alt (.str "dd".toList) (.str "shred".toList), .wb,
         dotStar, .wb, .str "/dev/".toList]⟩,
  -- curl-pipe-exec
  ⟨"\\bcurl\\b.*\\|\\s*(sh|bash|python)",
   .cat [.wb, .str "curl".toList, .wb, dotStar, .cls (.lit '|'),
         .star (.cls .space),
         .alt (.str "sh".toList) (.alt (.str "bash".toList) (.str "python".toList))]⟩,
  ⟨"\\bwget\\b.*-O\\s*-\\b.*\\|\\s*(sh|bash|python)",
   .cat [.wb, .str "wget".toList, .wb, dotStar, .str "-O".toList,
         .star (.cls .space), .cls (.lit '-'), .wb, dotStar,
         .cls (.lit '|'), .star (.cls .space),
         .alt (.str "sh".toList) (.alt (.str "bash".toList) (.str "python".toList))]⟩,
  -- sudo rm
  ⟨"\\bsudo\\s+rm\\b",
   .cat [.wb, .str "sudo".toList, spacePlus, .str "rm".toList, .wb]⟩,
  -- world-writable
  ⟨"\\bchmod\\s+777\\b",
   .cat [.wb, .str "chmod".toList, spacePlus, .str "777".toList, .wb]⟩,
  -- disk format
  ⟨"\\b(mkfs|fdisk|parted)\\b",
   .cat [.wb, .alt (.str "mkfs".toList) (.alt (.str "fdisk".toList) (.str "parted".toList)),
         .wb]⟩,
  -- reverse shell
  ⟨"\\b(nc|netcat)\\b.*-e\\b",
   .cat [.wb, .alt (.str "nc".toList) (.str "netcat".toList), .wb,
         dotStar, .str "-e".toList, .wb]⟩,
  -- inline eval
  ⟨"\\b(python|python3|perl|ruby)\\s+-c\\b.*exec",
   .cat [.wb,
         .alt (.str "python".toList) (.alt (.str "python3".toList)
           (.alt (.str "perl".toList) (.str "ruby".toList))),
         spacePlus, .str "-c".toList, .wb, dotStar, .str "exec".toList]⟩,
  -- overwrite system files
  ⟨">\\s*/etc/(passwd|shadow|sudoers)",
   .cat [.cls (.lit '>'), .star (.cls .space), .str "/etc/".toList,
         .alt (.str "passwd".toList) (.alt (.str "shadow".toList) (.str "sudoers".toList))]⟩,
  -- kill init
  ⟨"\\bkill\\s+-9\\s+1\\b",
   .cat [.wb, .str "kill".toList, spacePlus, .str "-9".toList,
         spacePlus, .str "1".toList, .wb]⟩,
  -- fork bomb
  ⟨":\\(\\)\\\x7b:\\|:&\\\x7d;:", .str ":(){:|:&};:".toList⟩]

/-- `_PII_PATTERNS` of `cso.py`, in list order. -/
def PII_PATTERNS : List (String × RE) := [
  ("credit_card",
   .cat [.wb,
         .alt (.cat [.cls (.lit '4'), .repN .digit 12, .opt (.repN .digit 3)])
           (.alt (.cat [.cls (.lit '5'), .cls (.ranges [('1', '5')]), .repN .digit 14])
             (.cat [.cls (.lit '3'), .cls (.oneOf ['4', '7']), .repN .digit 13])),
         .wb]),
  ("ssn",
   .cat [.wb, .repN .digit 3, .cls (.lit '-'), .repN .digit 2,
         .cls (.lit '-'), .repN .digit 4, .wb]),
  ("api_key_sk",
   .cat [.wb, .str "sk-".toList, .repAtLeast alnumCls 20, .wb]),
  ("api_key_gsk",
   .cat [.wb, .str "gsk_".toList, .repAtLeast alnumCls 20, .wb]),
  ("private_key",
   .cat [.str "-----BEGIN ".toList,
         .opt (.alt (.str "RSA ".toList) (.str "EC ".toList)),
         .str "PRIVATE KEY-----".toList]),
  ("aws_key",
   .cat [.wb, .str "AKIA".toList, .repN upperAlnumCls 16, .wb])]

/-- `_HIGH_RISK_TOOLS` -/
def HIGH_RISK_TOOLS : List String := ["shell_exec", "run_python", "file_write"]

/-- `_BLOCKED_PATH_PREFIXES` -/
def BLOCKED_PATH_PREFIXES : List String :=
  ["/etc/", "/sys/", "/proc/", "/boot/", "C:\\Windows\\", "C:\\System32\\"]

/-- `str.upper()` on the character list of a name. -/
def upperStr (s : String) : List Char := s.toList.map Char.toUpper

/-- `str.lower()` -/
def lowerChars (s : List Char) : List Char := s.map Char.toLower

/-- Python's `needle in hay` substring test. -/
def isSubstr (needle hay : List Char) : Bool :=
  (List.range (hay.length + 1)).any fun i => needle.isPrefixOf (hay.drop i)

/-- `CSO._check_commands` (cso.py lines 134–139). -/
def checkCommands (text : List Char) : List String :=
  (BLOCK_COMMANDS.filter fun p => reSearch p.re text).map
    fun p => "Blocked command pattern: " ++ ⟨p.src.toList.take 60⟩

/-- `CSO._redact_pii` (cso.py lines 141–147): each pattern in order is
searched against the running text; on a hit the text is replaced by
`pattern.sub` and a finding is appended. -/
def redactPii (text : List Char) : List Char × List String :=
  PII_PATTERNS.foldl
    (fun (st : List Char × List String) p =>
      if reSearch p.2 st.1 then
        (reSub p.2 ("[REDACTED:" ++ String.mk (upperStr p.1) ++ "]").toList false st.1,
         st.2 ++ ["PII detected and redacted: " ++ p.1])
      else st)
    (text, [])

/-- `CSO._check_paths` (cso.py lines 149–154). -/
def checkPaths (text : List Char) : List String :=
  (BLOCKED_PATH_PREFIXES.filter fun pre =>
      isSubstr (lowerChars pre.toList) (lowerChars text)).map
    fun pre => "Blocked system path reference: " ++ pre

/-- `CSODecision` dataclass. -/
structure CSODecision where
  approved : Bool
  risk_level : String
  findings : List String
  redacted_text : List Char
  deriving Repr, DecidableEq

/-- `["low","medium","high","critical"].index(r)` -/
def riskIndex (r : String) : Nat :=
  ["low", "medium", "high", "critical"].indexOf r

/-- `max(risk, "high", key=lambda r: [...].index(r))`: Python's
two-argument `max` keeps the first argument on ties. -/
def riskAtLeastHigh (risk : String) : String :=
  if riskIndex "high" > riskIndex risk then "high" else risk

/-- `CSO.review` (cso.py lines 79–124): the decision computation.  The
audit write (lines 110–117) has no effect on the returned decision. -/
def CSO.review (task_text : List Char) (tool_name : String) : CSODecision :=
  let step1 : List String × String :=
    if HIGH_RISK_TOOLS.contains tool_name || tool_name = "" then
      let blocked := checkCommands task_text
      if blocked ≠ [] then (blocked, "critical") else ([], "low")
    else ([], "low")
  let rp := redactPii task_text
  let step2 : List String × String :=
    if rp.2 ≠ [] then (step1.1 ++ rp.2, riskAtLeastHigh step1.2) else step1
  let pathIssues := checkPaths task_text
  let step3 : List String × String :=
    if pathIssues ≠ [] then (step2.1 ++ pathIssues, "critical") else step2
  { approved := step3.2 ≠ "critical"
    risk_level := step3.2
    findings := step3.1
    redacted_text := rp.1 }

/-- `CSO.review_tool_args`: flattens the argument values with
`" ".join(str(v) for v in args.values())` and reviews the result.
Argument values are modelled as strings (the CEO's tool calls carry
JSON-decoded values; `str` of a Python `str` is itself). -/
def CSO.review_tool_args (tool_name : String) (args : List (String × List Char)) :
    CSODecision :=
  CSO.review (List.intercalate [' '] (args.map Prod.snd)) tool_name

/-! ## LLM router (`multiclaws/llm/router.py`)

`complete_full` (lines 123–186).  Dollar amounts (`float`) are modelled
as `ℚ`.  The candidate list (provider override, or the top three ranked
providers, lines 138–141) is a parameter; each candidate carries its
behaviour for this request: `none` when `prov.complete` raises, `some
resp` when it returns a response.  The store is attached (`self.store`
set), so cost logging and the budget check run; `get_daily_cost` is the
sum of the cost rows of the current local day, modelled by keeping
exactly today's rows in `costLog`. -/

structure LLMResponse where
  content : String
  input_tokens : Nat
  output_tokens : Nat
  cost_usd : ℚ
  latency_ms : Nat
  deriving Repr, DecidableEq

inductive RouterEvent where
  /-- `prov.complete` was invoked (line 150) -/
  | providerCall (name : String)
  /-- `store.log_cost` wrote a row (line 159) -/
  | costRow (c : ℚ)
  /-- the alert-threshold warning fired (line 177) -/
  | budgetWarning
  deriving Repr, DecidableEq

inductive RouterOutcome where
  /-- `return resp` (line 179) -/
  | success (r : LLMResponse)
  /-- `ProviderExhaustedError` reached the caller (line 186) -/
  | exhausted
  deriving Repr, DecidableEq

/-- `self._quota_remaining[pname] = max(0, self._quota_remaining.get(pname, 1) - 0.3)` -/
def quotaDec (q : List (String × ℚ)) (name : String) : List (String × ℚ) :=
  let v0 := ((q.lookup name).getD 1) - 3/10
  let v := if 0 < v0 then v0 else 0  -- max(0, ...)
  if (q.lookup name).isSome then
    q.map fun kv => if kv.1 = name then (kv.1, v) else kv
  else q ++ [(name, v)]

/-- `store.get_daily_cost()` over today's rows. -/
def dailyCost (log : List ℚ) : ℚ := log.sum

/-- The fallback loop of `complete_full` (router.py lines 146–186).
Returns the event trace, the final cost log, the final quota map, and
the outcome.  Note the structure of the source: the budget check sits
INSIDE the `try`, so the `ProviderExhaustedError` raised at line 173 is
caught by the catch-all `except Exception` at line 181, which decrements
the provider's quota and moves on to the next candidate. -/
def completeFull (limit alertPct : ℚ) :
    List (String × Option LLMResponse) → List ℚ → List (String × ℚ) →
    List RouterEvent →
    List RouterEvent × List ℚ × List (String × ℚ) × RouterOutcome
  | [], log, quota, events => (events, log, quota, .exhausted)
  | (pname, beh) :: rest, log, quota, events =>
    match beh with
    | none =>
      -- provider raised: quota decremented, next candidate
      completeFull limit alertPct rest log (quotaDec quota pname)
        (events ++ [.providerCall pname])
    | some resp =>
      let events1 := events ++ [.providerCall pname, .costRow resp.cost_usd]
      let log1 := log ++ [resp.cost_usd]
      let daily := dailyCost log1
      let pct := if limit ≠ 0 then daily / limit * 100 else 0
      if daily ≥ limit then
        -- line 173 raises; line 181 catches; the loop continues
        completeFull limit alertPct rest log1 (quotaDec quota pname) events1
      else if pct ≥ alertPct then
        (events1 ++ [.budgetWarning], log1, quota, .success resp)
      else
        (events1, log1, quota, .success resp)

/-- Outcome of a `complete_full` run. -/
def routerOutcome (limit alertPct : ℚ) (cands : List (String × Option LLMResponse))
    (log : List ℚ) : RouterOutcome :=
  (completeFull limit alertPct cands log [] []).2.2.2

/-! ## Sandbox path containment (`multiclaws/tools/sandbox.py`)

`safe_path` (lines 21–26): join the user path onto `WORKSPACE`, call
`.resolve()`, and test `str(resolved).startswith(str(WORKSPACE))`.
POSIX paths are modelled as absolute component lists; `WORKSPACE` is a
resolved absolute path.  `.resolve()` is modelled as lexical
normalisation (empty and `.` segments dropped by the `Path`
constructor, `..` popping one component, stopping at the root); symbolic
links are not modelled. -/

/-- Split a character list on `/`. -/
def splitSlash (cs : List Char) : List (List Char) :=
  cs.foldr
    (fun c acc =>
      if c = '/' then [] :: acc
      else
        match acc with
        | [] => [[c]]
        | g :: gs => (c :: g) :: gs)
    [[]]

/-- `Path(p)`: absolute flag plus components (empty and `.` segments
vanish, as in `pathlib`). -/
def parsePath (p : String) : Bool × List (List Char) :=
  (p.toList.head? = some '/',
   (splitSlash p.toList).filter fun c => c ≠ [] && c ≠ ['.'])

/-- Lexical `..` normalisation of an absolute component list. -/
def normalizeComps (cs : List (List Char)) : List (List Char) :=
  cs.foldl (fun acc c => if c = ['.', '.'] then acc.dropLast else acc ++ [c]) []

/-- `str()` of an absolute path, as characters. -/
def renderPath (cs : List (List Char)) : List Char :=
  '/' :: List.intercalate ['/'] cs

inductive SafePathResult where
  | ok (p : List (List Char))
  /-- `SecurityError("Path escape attempt: ...")` -/
  | securityError
  deriving Repr, DecidableEq

/-- `(WORKSPACE / user_path).resolve()`: `pathlib` join (an absolute
argument replaces the base) followed by normalisation. -/
def resolvedPath (ws : List (List Char)) (user_path : String) : List (List Char) :=
  let parsed := parsePath user_path
  normalizeComps (if parsed.1 then parsed.2 else ws ++ parsed.2)

/-- `safe_path(user_path)` with the workspace root `ws` (the resolved
`WORKSPACE`, whose final component is named `workspace`). -/
def safePath (ws : List (List Char)) (user_path : String) : SafePathResult :=
  if (renderPath ws).isPrefixOf (renderPath (resolvedPath ws user_path)) then
    .ok (resolvedPath ws user_path)
  else .securityError

/-- `ws` is an ancestor of (or equal to) `p`, componentwise. -/
def isAncestorOf (ws p : List (List Char)) : Bool :=
  ws.isPrefixOf p

/-! ## CEO react-loop tool gating (`multiclaws/roles/ceo.py` lines 356–386)

One iteration with a parsed tool call `{tool, args}`: the CSO review
runs only when the tool name is one of `shell_exec`, `run_python`,
`file_write` (line 359); a veto short-circuits with an error result;
`delegate_task` goes to the retry wrapper; every other tool goes to
`registry.execute`. -/

inductive CEOEvent where
  /-- `self._cso.review_tool_args(...)` ran -/
  | review (tool : String) (args : List (String × List Char))
  /-- `self._registry.execute(tool_name, ...)` ran -/
  | execute (tool : String)
  /-- `self._dispatch_with_retry(...)` ran -/
  | delegate (agent : String)
  deriving Repr, DecidableEq

inductive ToolStepResult where
  /-- the `"CSO blocked"` tool result (lines 363–366) -/
  | blocked (findings : List String) (risk : String)
  | executed
  | delegated
  deriving Repr, DecidableEq

/-- One tool dispatch of the CEO react loop. -/
def ceoToolStep (tool_name : String) (tool_args : List (String × List Char)) :
    List CEOEvent × ToolStepResult :=
  if tool_name = "shell_exec" || tool_name = "run_python" || tool_name = "file_write" then
    let cso := CSO.review_tool_args tool_name tool_args
    if ¬cso.approved then
      ([.review tool_name tool_args], .blocked cso.findings cso.risk_level)
    else if tool_name = "delegate_task" then
      ([.review tool_name tool_args,
        .delegate (String.mk ((tool_args.lookup "agent").getD []))], .delegated)
    else
      ([.review tool_name tool_args, .execute tool_name], .executed)
  else if tool_name = "delegate_task" then
    ([.delegate (String.mk ((tool_args.lookup "agent").getD []))], .delegated)
  else
    ([.execute tool_name], .executed)

/-! ## CEO two-strike retry (`multiclaws/roles/ceo.py` lines 224–266) -/

/-- A worker result map: `error = none` models `"error" not in result`. -/
structure WorkerResult where
  error : Option String
  content : String
  deriving Repr, DecidableEq

/-- A task payload (JSON object). -/
abbrev TaskPayload := List (String × String)

/-- `{**task, key: val}` -/
def dictSet (task : TaskPayload) (key val : String) : TaskPayload :=
  if (task.lookup key).isSome then
    task.map fun kv => if kv.1 = key then (kv.1, val) else kv
  else task ++ [(key, val)]

/-- `dict.pop(key, None)` -/
def dictPop (m : List (String × Nat)) (key : String) : List (String × Nat) :=
  m.filter fun kv => kv.1 ≠ key

/-- `m[key] = v` -/
def countSet (m : List (String × Nat)) (key : String) (v : Nat) : List (String × Nat) :=
  if (m.lookup key).isSome then
    m.map fun kv => if kv.1 = key then (kv.1, v) else kv
  else m ++ [(key, v)]

inductive DispatchOutcome where
  | ok (r : WorkerResult)
  /-- the structured escalation error (lines 256–266): `escalate=True` -/
  | escalation (error : String) (agent_role : String) (strikes : Nat) (message : String)
  deriving Repr, DecidableEq

/-- The `_retry_hint` appended on the second attempt (line 248). -/
def retryHint : String := "Previous attempt failed. Try alternative approach."

/-- `CEOAgent._dispatch_with_retry`.  `disp` is `_inline_dispatch`'s
behaviour (the target worker).  Returns the payloads of the worker
invocations in order, the updated `_retry_counts`, and the outcome. -/
def dispatchWithRetry (disp : TaskPayload → WorkerResult)
    (counts : List (String × Nat)) (agent_role : String)
    (task : TaskPayload) (task_key : String) :
    List TaskPayload × List (String × Nat) × DispatchOutcome :=
  let attempts := (counts.lookup task_key).getD 0
  let result := disp task
  match result.error with
  | none => ([task], dictPop counts task_key, .ok result)
  | some e =>
    let attempts1 := attempts + 1
    let counts1 := countSet counts task_key attempts1
    if attempts1 < 2 then
      let retry_task := dictSet task "_retry_hint" retryHint
      let result2 := disp retry_task
      match result2.error with
      | none => ([task, retry_task], dictPop counts1 task_key, .ok result2)
      | some _ =>
        let counts2 := countSet counts1 task_key 2
        ([task, retry_task], counts2,
         .escalation e agent_role ((counts2.lookup task_key).getD 2)
           ("[Boardroom Escalation] " ++ String.mk (upperStr agent_role) ++
            " failed after " ++ toString ((counts2.lookup task_key).getD 2) ++
            " attempt(s). Chairman intervention required."))
    else
      ([task], counts1,
       .escalation e agent_role ((counts1.lookup task_key).getD 2)
         ("[Boardroom Escalation] " ++ String.mk (upperStr agent_role) ++
          " failed after " ++ toString ((counts1.lookup task_key).getD 2) ++
          " attempt(s). Chairman intervention required."))

/-! ## Worker chassis lifecycle (`multiclaws/core/picoclaw.py` lines 62–90)

`PicoClaw.run`: upsert `idle` on entry (line 74); run the event loop;
on `KeyboardInterrupt` pass; on any other exception log and upsert
`crashed` (line 86); in the `finally` block upsert `idle` (line 89). -/

inductive RunEnd where
  | normal
  | keyboardInterrupt
  /-- an uncaught exception escaped `asyncio.run(self._event_loop())` -/
  | crash
  deriving Repr, DecidableEq

/-- The statuses upserted to the agent's `agent_state` row during
`run`, in execution order. -/
def picoRunStatusWrites (e : RunEnd) : List String :=
  ["idle"] ++ (match e with | .crash => ["crashed"] | _ => []) ++ ["idle"]

/-- The agent-state row after a sequence of upserts holds the last
status written. -/
def finalAgentStatus (e : RunEnd) : Option String :=
  (picoRunStatusWrites e).getLast?

/-! ## Task queue (`multiclaws/memory/store.py`)

Rows of the `tasks` table in rowid order, plus the `task_deps` edges.
`retry_count`/`max_retries` are nullable columns read through Python's
`or` (`row["retry_count"] or 0`, `row["max_retries"] or 2`), which also
maps an integer `0` to the default. -/

structure TaskRow where
  id : String
  assigned_to : String
  status : String
  retry_count : Option Nat
  max_retries : Option Nat
  error_msg : Option String
  created_at : Nat
  deriving Repr, DecidableEq

structure TaskStore where
  tasks : List TaskRow
  /-- `task_deps` rows `(task_id, depends_on)` -/
  deps : List (String × String)
  deriving Repr, DecidableEq

/-- Python's `x or d` on a nullable integer column. -/
def orNat (v : Option Nat) (d : Nat) : Nat :=
  match v with
  | none => d
  | some 0 => d
  | some n => n

/-- `MemoryStore.fail_with_retry` (store.py lines 226–247). -/
def failWithRetry (st : TaskStore) (task_id : String) (error : String) :
    Bool × TaskStore :=
  match st.tasks.find? (fun r => r.id = task_id) with
  | none => (false, st)
  | some row =>
    let rc := orNat row.retry_count 0 + 1
    if rc ≤ orNat row.max_retries 2 then
      (true,
       { st with tasks := st.tasks.map fun r =>
          if r.id = task_id then
            { r with status := "pending", retry_count := some rc,
                     error_msg := some error }
          else r })
    else
      (false,
       { st with tasks := st.tasks.map fun r =>
          if r.id = task_id then
            { r with status := "failed", retry_count := some rc,
                     error_msg := some error }
          else r })

/-- The `NOT EXISTS` subquery of `claim_ready_task` (store.py lines
262–266): the task is blocked when some `task_deps` edge joins to a
`tasks` row whose status is not `done`. -/
def depBlocked (st : TaskStore) (tid : String) : Bool :=
  st.deps.any fun d =>
    d.1 = tid && st.tasks.any fun dep => dep.id = d.2 && dep.status ≠ "done"

/-- `ORDER BY created_at LIMIT 1`: the first row (in rowid order) with
minimal `created_at`. -/
def oldestFirst : List TaskRow → Option TaskRow
  | [] => none
  | t :: ts =>
    match oldestFirst ts with
    | none => some t
    | some b => if b.created_at < t.created_at then some b else some t

/-- The `WHERE` clause of `claim_ready_task`: pending rows of the role
with no blocking dependency. -/
def readyCands (st : TaskStore) (agent_role : String) : List TaskRow :=
  st.tasks.filter fun t =>
    t.status = "pending" && t.assigned_to = agent_role && !depBlocked st t.id

/-- `MemoryStore.claim_ready_task` (store.py lines 257–277).  The
returned row is the row as selected (before the status update), exactly
as `dict(row)` in the source. -/
def claimReadyTask (st : TaskStore) (agent_role : String) :
    Option TaskRow × TaskStore :=
  match oldestFirst (readyCands st agent_role) with
  | none => (none, st)
  | some row =>
    (some row,
     { st with tasks := st.tasks.map fun r =>
        if r.id = row.id then { r with status := "running" } else r })

/-- Modelled from the spec: the `schema.sql` file creating the `tasks`
and `task_deps` tables is not under `src/`; §3 and §4.A of the
specification state that foreign keys are enforced (and the store opens
every connection with `PRAGMA foreign_keys=ON`), so every
`task_deps.depends_on` value references an existing `tasks.id`. -/
def fkEnforced (st : TaskStore) : Prop :=
  ∀ d ∈ st.deps, ∃ r ∈ st.tasks, r.id = d.2

/-- Concrete store for the `claim_ready_task` theorem's witness: `d1`
is done, `t1` (created at 5) depends on it, `t2` (created at 9) is a
younger pending task. -/
def c8Store : TaskStore :=
  ⟨[⟨"d1", "coder", "done", none, none, none, 1⟩,
    ⟨"t1", "coder", "pending", none, none, none, 5⟩,
    ⟨"t2", "coder", "pending", none, none, none, 9⟩],
   [("t1", "d1")]⟩

/-- The row `claim_ready_task` should return on `c8Store`. -/
def c8Row : TaskRow := ⟨"t1", "coder", "pending", none, none, none, 5⟩

/-- `c8Store` after the claim: `t1` runs. -/
def c8Store2 : TaskStore :=
  ⟨[⟨"d1", "coder", "done", none, none, none, 1⟩,
    ⟨"t1", "coder", "running", none, none, none, 5⟩,
    ⟨"t2", "coder", "pending", none, none, none, 9⟩],
   [("t1", "d1")]⟩

/-! ## Syntactic analysis of patterns

Computable over-approximations of engine behaviour, used to reason
about the redaction pipeline: the character alphabet a pattern can
consume, whether it can succeed without consuming, whether every match
is guarded by a word boundary at its edges, and the wordness of the
first/last consumed character. -/

/-- Wordness of the first character (`none` at the end of the text);
the word-boundary test only depends on this much of the suffix. -/
def headSig (s : List Char) : Option Bool :=
  match s with
  | [] => none
  | c :: _ => some (isWordChar c)

/-- Scan context after reading `v` starting from context `pw`. -/
def ctxAfter (pw : Bool) (v : List Char) : Bool :=
  match v.getLast? with
  | none => pw
  | some c => isWordChar c

/-- Over-approximation of the characters `r` can consume. -/
def alpha : RE → Char → Bool
  | .eps, _ => false
  | .cls k, c => k.matches c
  | .seq a b, c => alpha a c || alpha b c
  | .alt a b, c => alpha a c || alpha b c
  | .opt a, c => alpha a c
  | .star a, c => alpha a c
  | .wb, _ => false

/-- Whether `r` can succeed while consuming nothing. -/
def canSkip : RE → Bool
  | .eps => true
  | .cls _ => false
  | .seq a b => canSkip a && canSkip b
  | .alt a b => canSkip a || canSkip b
  | .opt _ => true
  | .star _ => true
  | .wb => true

/-- Whether every success of `r` consumes at least one character. -/
def nonNullable (r : RE) : Bool := !canSkip r

/-- Whether every success of `r` begins with a word-boundary test at
the start position. -/
def startsWb : RE → Bool
  | .wb => true
  | .seq a _ => startsWb a
  | .alt a b => startsWb a && startsWb b
  | _ => false

/-- Whether every success of `r` ends with a word-boundary test at the
end position. -/
def endsWb : RE → Bool
  | .wb => true
  | .seq _ b => endsWb b
  | .alt a b => endsWb a && endsWb b
  | _ => false

/-- Whether `r` mentions `\b` at all. -/
def hasWb : RE → Bool
  | .wb => true
  | .seq a b => hasWb a || hasWb b
  | .alt a b => hasWb a || hasWb b
  | .opt a => hasWb a
  | .star a => hasWb a
  | .eps => false
  | .cls _ => false

/-- Whether every character the class accepts is a word character. -/
def clsWordOnly : CharCls → Bool
  | .digit => true
  | .space => false
  | .dot => false
  | .lit c => isWordChar c
  | .litI _ => false
  | .oneOf cs => cs.all isWordChar
  | .ranges rs => rs.all fun r =>
      (r.1 = 'A' && r.2 = 'Z') || (r.1 = 'a' && r.2 = 'z') ||
      (r.1 = '0' && r.2 = '9') || (r.1 = '1' && r.2 = '5')

/-- Whether every character the class accepts is a non-word character. -/
def clsNonWordOnly : CharCls → Bool
  | .lit c => !isWordChar c
  | .oneOf cs => cs.all fun c => !isWordChar c
  | _ => false

/-- Whether the first consumed character of every success of `r` comes
from a class that `clsP` certifies. -/
def firstOnly (clsP : CharCls → Bool) : RE → Bool
  | .eps => true
  | .cls k => clsP k
  | .seq a b => firstOnly clsP a && (!canSkip a || firstOnly clsP b)
  | .alt a b => firstOnly clsP a && firstOnly clsP b
  | .opt a => firstOnly clsP a
  | .star a => firstOnly clsP a
  | .wb => true

/-- Whether the last consumed character of every success of `r` comes
from a class that `clsP` certifies. -/
def lastOnly (clsP : CharCls → Bool) : RE → Bool
  | .eps => true
  | .cls k => clsP k
  | .seq a b => lastOnly clsP b && (!canSkip b || lastOnly clsP a)
  | .alt a b => lastOnly clsP a && lastOnly clsP b
  | .opt a => lastOnly clsP a
  | .star a => lastOnly clsP a
  | .wb => true

/-- First consumed character is always a word character. -/
def firstWordOnly (r : RE) : Bool := firstOnly clsWordOnly r

/-- First consumed character is never a word character. -/
def firstNonWordOnly (r : RE) : Bool := firstOnly clsNonWordOnly r

/-- Last consumed character is always a word character. -/
def lastWordOnly (r : RE) : Bool := lastOnly clsWordOnly r

/-- Last consumed character is never a word character. -/
def lastNonWordOnly (r : RE) : Bool := lastOnly clsNonWordOnly r

/-- The `\b`-guarded PII pattern shape: never matches empty text, starts
and ends with a word-boundary test, and its first and last consumed
characters are word characters; its alphabet avoids both brackets of the
replacement marker. -/
def classA (r : RE) : Bool :=
  nonNullable r && startsWb r && endsWb r && firstWordOnly r &&
    lastWordOnly r && !alpha r '[' && !alpha r ']'

/-- The boundary-free PII pattern shape (the PEM header): never matches
empty text, mentions no `\b`, and its first and last consumed characters
are non-word characters; its alphabet avoids both brackets. -/
def pemLike (r : RE) : Bool :=
  nonNullable r && !hasWb r && firstNonWordOnly r && lastNonWordOnly r &&
    !alpha r '[' && !alpha r ']'

/-- Whether `r` matches at no position of the replacement string `repl`
on its own (checked for both possible scan contexts). -/
def h2ok (r : RE) (repl : List Char) : Bool :=
  (List.range (repl.length + 1)).all fun j =>
    decide (matchLenAt r false (repl.drop j) = none) &&
      decide (matchLenAt r true (repl.drop j) = none)

/-- The replacement marker `[REDACTED:NAME]` written for a pattern name. -/
def replStr (name : String) : List Char :=
  ("[REDACTED:" ++ String.mk (upperStr name) ++ "]").toList

/-- One step of `_redact_pii`'s fold, projected to the running text. -/
def stepP (p : String × RE) (t : List Char) : List Char :=
  if reSearch p.2 t then reSub p.2 (replStr p.1) false t else t

/-! # Theorems -/

/-- Helper: pushing one hit-free pattern through `redactPii`'s fold. -/
theorem redactPii_fold_ne_nil (ps : List (String × RE)) :
    ∀ st : List Char × List String,
      ((∃ p ∈ ps, reSearch p.2 st.1 = true) ∨ st.2 ≠ []) →
      (ps.foldl (fun (st : List Char × List String) p =>
        if reSearch p.2 st.1 then
          (reSub p.2 ("[REDACTED:" ++ String.mk (upperStr p.1) ++ "]").toList false st.1,
           st.2 ++ ["PII detected and redacted: " ++ p.1])
        else st) st).2 ≠ [] := by
  induction ps with
  | nil =>
    intro st h
    rcases h with ⟨p, hp, _⟩ | h
    · exact absurd hp (List.not_mem_nil p)
    · simpa using h
  | cons p ps ih =>
    intro st h
    simp only [List.foldl_cons]
    by_cases hs : reSearch p.2 st.1 = true
    · refine ih _ (Or.inr ?_)
      simp [hs]
    · rw [if_neg (by simpa using hs)]
      refine ih st ?_
      rcases h with ⟨q, hq, hqs⟩ | h
      · rcases List.mem_cons.mp hq with rfl | hq
        · exact absurd hqs hs
        · exact Or.inl ⟨q, hq, hqs⟩
      · exact Or.inr h

/-- C6 (counterexample): the reviewed text `rm -rf /` matches the first
dangerous-command pattern, yet with `tool_name="web_fetch"` the command
check is skipped (cso.py line 89) and `review` returns risk `low`,
approved — the claim's "regardless of which tool" fails. -/
theorem C6_counterexample :
    checkCommands (String.toList "rm -rf /") ≠ [] ∧
    CSO.review (String.toList "rm -rf /") "web_fetch" =
      ⟨true, "low", [], String.toList "rm -rf /"⟩ := by
  constructor
  · decide
  · decide

/-- C6 (amended): whenever the reviewed text matches at least one
dangerous-command pattern AND the tool name is one of the high-risk
tools (`shell_exec`, `run_python`, `file_write`) or empty, `CSO.review`
returns risk `critical` and `approved = false`; for other tool names
the command check is skipped entirely (cso.py line 89). -/
theorem C6_command_hit_critical (text : List Char) (tool : String)
    (htool : HIGH_RISK_TOOLS.contains tool = true ∨ tool = "")
    (hcmd : checkCommands text ≠ []) :
    (CSO.review text tool).risk_level = "critical" ∧
    (CSO.review text tool).approved = false := by
  have hcond : (HIGH_RISK_TOOLS.contains tool || decide (tool = "")) = true := by
    rcases htool with h | h
    · rw [h]; rfl
    · subst h; decide
  have hra : riskAtLeastHigh "critical" = "critical" := by decide
  simp only [CSO.review, hcond, if_true, if_pos hcmd]
  split <;> split <;> simp [hra]

/-- C6 (witness): `rm -rf /` reviewed for `shell_exec` is vetoed as
critical. -/
theorem C6_witness :
    (HIGH_RISK_TOOLS.contains "shell_exec" = true ∨ "shell_exec" = "") ∧
    checkCommands (String.toList "rm -rf /") ≠ [] ∧
    (CSO.review (String.toList "rm -rf /") "shell_exec").risk_level = "critical" ∧
    (CSO.review (String.toList "rm -rf /") "shell_exec").approved = false :=
  ⟨Or.inl (by decide), by decide,
   C6_command_hit_critical (String.toList "rm -rf /") "shell_exec"
     (Or.inl (by decide)) (by decide)⟩

/-- C5: when an uncaught exception escapes the worker's event loop, the
`except` branch writes `crashed` (picoclaw.py line 86) but the `finally`
block then writes `idle` (line 89), so the agent-state row at process
exit reads `idle`, not `crashed` — the supervisor cannot observe the
crash from the row. -/
theorem C5_crash_status_overwritten :
    "crashed" ∈ picoRunStatusWrites .crash ∧
    finalAgentStatus .crash = some "idle" ∧
    finalAgentStatus .crash ≠ some "crashed" := by
  refine ⟨by decide, by decide, by decide⟩

/-- C1 (counterexample): with the daily budget already reached
(`daily = 0 ≥ limit = 0`) the router still performs a provider call and
writes a cost row before refusing: `complete_full` has no pre-call
budget check (router.py lines 146–175). -/
theorem C1_counterexample :
    dailyCost [] ≥ (0 : ℚ) ∧
    (completeFull 0 80 [("openai", some ⟨"ok", 1, 1, 0, 5⟩)] [] [] []).1 =
      [.providerCall "openai", .costRow 0] ∧
    (completeFull 0 80 [("openai", some ⟨"ok", 1, 1, 0, 5⟩)] [] [] []).2.1 = [0] ∧
    (completeFull 0 80 [("openai", some ⟨"ok", 1, 1, 0, 5⟩)] [] [] []).2.2.2 =
      .exhausted := by
  refine ⟨le_refl 0, ?_, ?_, ?_⟩ <;>
    (simp only [completeFull]; norm_num [dailyCost])

/-- C1 (amended): when the daily cost is at or above the daily budget at
the moment the call begins, `complete_full` never returns a response —
every candidate ends in the budget branch (or fails), and the final
`ProviderExhaustedError` of line 186 reaches the caller — but only
after the candidate providers have been called and each successful
call's cost row has been written. -/
theorem C1_over_budget_exhausts (limit alertPct : ℚ)
    (cands : List (String × Option LLMResponse)) :
    ∀ (log : List ℚ) (quota : List (String × ℚ)) (events : List RouterEvent),
      dailyCost log ≥ limit →
      (∀ c ∈ cands, ∀ r, c.2 = some r → 0 ≤ r.cost_usd) →
      (completeFull limit alertPct cands log quota events).2.2.2 = .exhausted := by
  induction cands with
  | nil => intro log quota events _ _; rfl
  | cons c rest ih =>
    intro log quota events hover hcost
    obtain ⟨pname, beh⟩ := c
    match beh with
    | none =>
      simpa using ih log (quotaDec quota pname) (events ++ [.providerCall pname])
        hover (fun c hc => hcost c (List.mem_cons_of_mem _ hc))
    | some resp =>
      have hc0 : 0 ≤ resp.cost_usd :=
        hcost (pname, some resp) (List.mem_cons_self _ _) resp rfl
      have hge : dailyCost (log ++ [resp.cost_usd]) ≥ limit := by
        simp only [dailyCost, List.sum_append, List.sum_cons, List.sum_nil]
        have := hover
        simp only [dailyCost] at this
        linarith
      simp only [completeFull, if_pos hge]
      exact ih (log ++ [resp.cost_usd]) (quotaDec quota pname) _ hge
        (fun c hc => hcost c (List.mem_cons_of_mem _ hc))

/-- C1 (witness for the amended theorem). -/
theorem C1_over_budget_exhausts_witness :
    dailyCost [] ≥ (0 : ℚ) ∧
    (completeFull 0 80 [("openai", some ⟨"ok", 1, 1, 0, 5⟩)] [] [] []).2.2.2 =
      .exhausted :=
  ⟨le_refl 0,
   C1_over_budget_exhausts 0 80 [("openai", some ⟨"ok", 1, 1, 0, 5⟩)] [] [] []
     (le_refl 0)
     (by intro c hc r hr; simp at hc; simp [hc] at hr; simp [← hr])⟩

/-- C3: a successful call whose cost row trips the daily budget does NOT
stop the fallback loop: the `ProviderExhaustedError` raised at router.py
line 173 is caught by the `except Exception` at line 181, the next
candidate is attempted, and its cost row is written too.  Here the first
provider's $1 row reaches the $1 budget, yet the second provider is
called and a second row is logged before the caller finally sees
`ProviderExhausted`. -/
theorem C3_budget_trip_continues_loop :
    (completeFull 1 80 [("a", some ⟨"ra", 1, 1, 1, 5⟩), ("b", some ⟨"rb", 1, 1, 1, 5⟩)]
        [] [] []).1 =
      [.providerCall "a", .costRow 1, .providerCall "b", .costRow 1] ∧
    (completeFull 1 80 [("a", some ⟨"ra", 1, 1, 1, 5⟩), ("b", some ⟨"rb", 1, 1, 1, 5⟩)]
        [] [] []).2.1 = [1, 1] ∧
    (completeFull 1 80 [("a", some ⟨"ra", 1, 1, 1, 5⟩), ("b", some ⟨"rb", 1, 1, 1, 5⟩)]
        [] [] []).2.2.2 = .exhausted := by
  refine ⟨?_, ?_, ?_⟩ <;> (simp only [completeFull]; norm_num [dailyCost])

/-- C2 (counterexample): `safe_path` checks containment with a string
prefix test (sandbox.py line 24), so a SIBLING directory whose name
extends the workspace directory name passes the check.  With the
workspace at `/home/teamclaws/workspace`, the input
`../workspacex/secret` resolves to `/home/teamclaws/workspacex/secret`,
whose string starts with `/home/teamclaws/workspace` — `safe_path`
returns it, yet the workspace is not one of its ancestors. -/
theorem C2_counterexample :
    safePath ["home".toList, "teamclaws".toList, "workspace".toList]
        "../workspacex/secret" =
      .ok ["home".toList, "teamclaws".toList, "workspacex".toList, "secret".toList] ∧
    isAncestorOf ["home".toList, "teamclaws".toList, "workspace".toList]
      ["home".toList, "teamclaws".toList, "workspacex".toList, "secret".toList] =
      false := by
  constructor
  · rfl
  · rfl

/-- C2 (amended): for every input, `safe_path` either raises
`SecurityError` or returns a normalized path whose STRING rendering has
the workspace's string rendering as a prefix (which admits sibling
directories whose final component extends the name `workspace`, not
only descendants of the workspace). -/
theorem C2_prefix_or_error (ws : List (List Char)) (p : String)
    (r : List (List Char)) (h : safePath ws p = .ok r) :
    (renderPath ws).isPrefixOf (renderPath r) = true := by
  unfold safePath at h
  split at h
  · rename_i hpre
    cases h
    exact hpre
  · cases h

/-- C2 (witness for the amended theorem). -/
theorem C2_prefix_or_error_witness :
    safePath ["home".toList, "teamclaws".toList, "workspace".toList] "notes/a.txt" =
      .ok ["home".toList, "teamclaws".toList, "workspace".toList,
           "notes".toList, "a.txt".toList] ∧
    (renderPath ["home".toList, "teamclaws".toList, "workspace".toList]).isPrefixOf
      (renderPath ["home".toList, "teamclaws".toList, "workspace".toList,
                   "notes".toList, "a.txt".toList]) = true :=
  ⟨by rfl,
   C2_prefix_or_error ["home".toList, "teamclaws".toList, "workspace".toList]
     "notes/a.txt"
     ["home".toList, "teamclaws".toList, "workspace".toList,
      "notes".toList, "a.txt".toList] (by rfl)⟩

/-- C4 (counterexample): a `web_fetch` tool call is executed directly —
the security reviewer is consulted only for `shell_exec`, `run_python`
and `file_write` (ceo.py line 359).  The chosen arguments reference
`/etc/passwd`, which the reviewer would veto as critical (blocked path
prefix), yet the step's trace contains no review at all and the tool
runs. -/
theorem C4_counterexample :
    ceoToolStep "web_fetch" [("url", String.toList "/etc/passwd")] =
      ([.execute "web_fetch"], .executed) ∧
    (CSO.review_tool_args "web_fetch" [("url", String.toList "/etc/passwd")]).approved
      = false := by
  constructor
  · rfl
  · decide

/-- C4 (amended): for the three high-risk tools the react loop does pass
the arguments through the security reviewer before executing, and a
veto short-circuits: the trace is the lone review event and the result
is the blocked payload, with no execution. -/
theorem C4_high_risk_gated (tool : String) (args : List (String × List Char))
    (htool : tool = "shell_exec" ∨ tool = "run_python" ∨ tool = "file_write") :
    ((ceoToolStep tool args).1.head? = some (.review tool args)) ∧
    ((CSO.review_tool_args tool args).approved = false →
      ceoToolStep tool args =
        ([.review tool args],
         .blocked (CSO.review_tool_args tool args).findings
           (CSO.review_tool_args tool args).risk_level)) := by
  have hcond : (tool = "shell_exec" || tool = "run_python" || tool = "file_write") = true := by
    rcases htool with h | h | h <;> simp [h]
  have hneq : ¬(tool = "delegate_task") := by
    rcases htool with h | h | h <;> (subst h; decide)
  constructor
  · by_cases happ : (CSO.review_tool_args tool args).approved = true
    · simp [ceoToolStep, hcond, happ, hneq]
    · simp [ceoToolStep, hcond, happ]
  · intro hveto
    simp [ceoToolStep, hcond, hveto]

/-- C4 (witness for the amended theorem): `shell_exec` with `rm -rf /`
is reviewed and blocked. -/
theorem C4_high_risk_gated_witness :
    ((ceoToolStep "shell_exec" [("command", String.toList "rm -rf /")]).1.head? =
      some (.review "shell_exec" [("command", String.toList "rm -rf /")])) ∧
    ceoToolStep "shell_exec" [("command", String.toList "rm -rf /")] =
      ([.review "shell_exec" [("command", String.toList "rm -rf /")]],
       .blocked (CSO.review_tool_args "shell_exec"
           [("command", String.toList "rm -rf /")]).findings
         (CSO.review_tool_args "shell_exec"
           [("command", String.toList "rm -rf /")]).risk_level) :=
  ⟨(C4_high_risk_gated "shell_exec" [("command", String.toList "rm -rf /")]
      (Or.inl rfl)).1,
   (C4_high_risk_gated "shell_exec" [("command", String.toList "rm -rf /")]
      (Or.inl rfl)).2 (by decide)⟩

/-- Helper: a `lookup` walks past a non-matching head. -/
theorem lookup_cons_ne {β : Type} (k a : String) (b : β) (m : List (String × β))
    (hbeq : (k == a) = false) :
    List.lookup k ((a, b) :: m) = List.lookup k m := by
  simp [List.lookup, hbeq]

/-- Helper: replacing a present key's value makes it look up to the new
value. -/
theorem lookup_map_set (m : List (String × Nat)) (k : String) (v : Nat)
    (hsome : (m.lookup k).isSome = true) :
    ((m.map fun kv => if kv.1 = k then (kv.1, v) else kv).lookup k) = some v := by
  induction m with
  | nil => simp at hsome
  | cons kv m ih =>
    obtain ⟨a, b⟩ := kv
    by_cases hk : a = k
    · subst hk
      rw [List.map_cons, show (if (a, b).1 = a then ((a, b).1, v) else (a, b)) = (a, v)
        by simp]
      simp [List.lookup]
    · have hbeq : (k == a) = false := by
        simp only [beq_eq_false_iff_ne, ne_eq]
        exact fun he => hk he.symm
      rw [List.map_cons, show (if (a, b).1 = k then ((a, b).1, v) else (a, b)) = (a, b)
        by simp [hk], lookup_cons_ne k a b _ hbeq]
      rw [lookup_cons_ne k a b m hbeq] at hsome
      exact ih hsome

/-- Helper: appending a missing key makes it look up to the new value. -/
theorem lookup_append_set (m : List (String × Nat)) (k : String) (v : Nat)
    (hnone : m.lookup k = none) :
    ((m ++ [(k, v)]).lookup k) = some v := by
  induction m with
  | nil => simp [List.lookup]
  | cons kv m ih =>
    obtain ⟨a, b⟩ := kv
    by_cases hk : k = a
    · have hbeq : (k == a) = true := by simp [hk]
      rw [show List.lookup k ((a, b) :: m) = some b by simp [List.lookup, hbeq]] at hnone
      cases hnone
    · have hbeq : (k == a) = false := by
        simp only [beq_eq_false_iff_ne, ne_eq]
        exact hk
      rw [List.cons_append, lookup_cons_ne k a b _ hbeq]
      rw [lookup_cons_ne k a b m hbeq] at hnone
      exact ih hnone

/-- Helper: setting a key makes it look up to the set value. -/
theorem lookup_countSet (m : List (String × Nat)) (k : String) (v : Nat) :
    (countSet m k v).lookup k = some v := by
  unfold countSet
  split
  · rename_i hsome
    exact lookup_map_set m k v hsome
  · rename_i hnone
    exact lookup_append_set m k v (Option.not_isSome_iff_eq_none.mp hnone)

/-- C9: with a fresh retry key, a delegation whose worker errors twice
invokes the worker exactly twice — the second payload carrying the
`_retry_hint` — and the wrapper returns the escalation payload
(`escalate=true`) built from the first error with `strikes = 2`. -/
theorem C9_two_strike_escalation (disp : TaskPayload → WorkerResult)
    (counts : List (String × Nat)) (agent_role : String)
    (task : TaskPayload) (task_key : String) (e1 e2 : String)
    (hfresh : counts.lookup task_key = none)
    (h1 : (disp task).error = some e1)
    (h2 : (disp (dictSet task "_retry_hint" retryHint)).error = some e2) :
    (dispatchWithRetry disp counts agent_role task task_key).1 =
      [task, dictSet task "_retry_hint" retryHint] ∧
    ∃ msg, (dispatchWithRetry disp counts agent_role task task_key).2.2 =
      .escalation e1 agent_role 2 msg := by
  simp only [dispatchWithRetry, hfresh, Option.getD_none, h1, h2, lookup_countSet]
  norm_num

/-- C9 (witness). -/
theorem C9_two_strike_escalation_witness :
    (dispatchWithRetry (fun _ => ⟨some "boom", ""⟩) [] "cto"
        [("goal", "x")] "cto:42").1 =
      [[("goal", "x")], dictSet [("goal", "x")] "_retry_hint" retryHint] ∧
    ∃ msg, (dispatchWithRetry (fun _ => ⟨some "boom", ""⟩) [] "cto"
        [("goal", "x")] "cto:42").2.2 =
      .escalation "boom" "cto" 2 msg :=
  C9_two_strike_escalation (fun _ => ⟨some "boom", ""⟩) [] "cto"
    [("goal", "x")] "cto:42" "boom" "boom" (by rfl) (by rfl) (by rfl)

/-- C10: `fail_with_retry` on a task id with no row returns `False` and
leaves the store unchanged (store.py lines 229–233: the early return
fires before any UPDATE). -/
theorem C10_missing_task_no_change (st : TaskStore) (tid err : String)
    (h : ∀ r ∈ st.tasks, r.id ≠ tid) :
    failWithRetry st tid err = (false, st) := by
  unfold failWithRetry
  have hfind : st.tasks.find? (fun r => r.id = tid) = none := by
    rw [List.find?_eq_none]
    intro r hr
    simp [h r hr]
  rw [hfind]

/-- C10 (witness). -/
theorem C10_missing_task_no_change_witness :
    failWithRetry ⟨[⟨"a", "coder", "pending", none, none, none, 1⟩], []⟩
        "zzz" "oops" =
      (false, ⟨[⟨"a", "coder", "pending", none, none, none, 1⟩], []⟩) :=
  C10_missing_task_no_change _ "zzz" "oops" (by decide)

/-- Helper: `oldestFirst` of a nonempty list is `some`. -/
theorem oldestFirst_eq_none : ∀ {l : List TaskRow}, oldestFirst l = none → l = [] := by
  intro l h
  cases l with
  | nil => rfl
  | cons t ts =>
    unfold oldestFirst at h
    revert h
    cases oldestFirst ts with
    | none => intro h; cases h
    | some m =>
      dsimp only
      by_cases hlt : m.created_at < t.created_at
      · rw [if_pos hlt]; intro h; cases h
      · rw [if_neg hlt]; intro h; cases h

/-- Helper: `oldestFirst` returns an element of the list. -/
theorem oldestFirst_mem : ∀ {l : List TaskRow} {b : TaskRow},
    oldestFirst l = some b → b ∈ l := by
  intro l
  induction l with
  | nil => intro b h; cases h
  | cons t ts ih =>
    intro b h
    unfold oldestFirst at h
    revert h
    cases hof : oldestFirst ts with
    | none => intro h; cases h; exact List.mem_cons_self _ _
    | some m =>
      dsimp only
      by_cases hlt : m.created_at < t.created_at
      · rw [if_pos hlt]
        intro h
        cases h
        exact List.mem_cons_of_mem _ (ih hof)
      · rw [if_neg hlt]
        intro h
        cases h
        exact List.mem_cons_self _ _

/-- Helper: `oldestFirst` returns a row of minimal `created_at`. -/
theorem oldestFirst_min : ∀ {l : List TaskRow} {b : TaskRow},
    oldestFirst l = some b → ∀ t ∈ l, b.created_at ≤ t.created_at := by
  intro l
  induction l with
  | nil => intro b h; cases h
  | cons t ts ih =>
    intro b h u hu
    unfold oldestFirst at h
    revert h
    cases hof : oldestFirst ts with
    | none =>
      intro h
      cases h
      rcases List.mem_cons.mp hu with rfl | hu
      · exact le_refl _
      · rw [oldestFirst_eq_none hof] at hu
        cases hu
    | some m =>
      dsimp only
      by_cases hlt : m.created_at < t.created_at
      · rw [if_pos hlt]
        intro h
        cases h
        rcases List.mem_cons.mp hu with rfl | hu
        · exact le_of_lt hlt
        · exact ih hof u hu
      · rw [if_neg hlt]
        intro h
        cases h
        rcases List.mem_cons.mp hu with rfl | hu
        · exact le_refl _
        · exact le_trans (not_lt.mp hlt) (ih hof u hu)

/-- C8: every task returned by `claim_ready_task` is a pending task of
the requested role, all of its recorded dependencies resolve to tasks in
status `done` (given the foreign keys of the spec, §4.A), its
`created_at` is minimal among the claimable candidates, and in the
updated store every row with its id is `running` while all other rows
are untouched.  (The claim's atomicity is the single transaction of
`_conn`; the embedding models the operation as one step.) -/
theorem C8_claim_ready_task (st : TaskStore) (role : String) (row : TaskRow)
    (st2 : TaskStore) (hfk : fkEnforced st)
    (h : claimReadyTask st role = (some row, st2)) :
    row.status = "pending" ∧ row.assigned_to = role ∧
    (∀ d ∈ st.deps, d.1 = row.id →
      ∃ dep ∈ st.tasks, dep.id = d.2 ∧ dep.status = "done") ∧
    (∀ t ∈ st.tasks, t.status = "pending" → t.assigned_to = role →
      depBlocked st t.id = false → row.created_at ≤ t.created_at) ∧
    (∀ r ∈ st2.tasks, r.id = row.id → r.status = "running") ∧
    (∀ r ∈ st2.tasks, r.id ≠ row.id → r ∈ st.tasks) ∧
    st2.deps = st.deps := by
  cases hof : oldestFirst (readyCands st role) with
  | none =>
    rw [claimReadyTask, hof] at h
    exact absurd (congrArg Prod.fst h) (by simp)
  | some b =>
    rw [claimReadyTask, hof] at h
    rw [Prod.mk.injEq] at h
    obtain ⟨hb, hst2⟩ := h
    injection hb with hb
    replace hb := hb.symm
    subst hb
    have hmem := oldestFirst_mem hof
    rw [readyCands, List.mem_filter] at hmem
    obtain ⟨hrowmem, hprops⟩ := hmem
    simp only [Bool.and_eq_true, Bool.not_eq_true', decide_eq_true_eq] at hprops
    obtain ⟨⟨hstatus, hrole⟩, hnotblocked⟩ := hprops
    refine ⟨hstatus, hrole, ?_, ?_, ?_, ?_, ?_⟩
    · -- dependencies all resolve to done tasks
      intro d hd hdid
      obtain ⟨dep, hdepmem, hdepid⟩ := hfk d hd
      refine ⟨dep, hdepmem, hdepid, ?_⟩
      unfold depBlocked at hnotblocked
      simp only [List.any_eq_false, Bool.and_eq_true, decide_eq_true_eq, not_and,
        ne_eq, Bool.not_eq_true] at hnotblocked
      have hall := hnotblocked d hd hdid
      simp only [List.any_eq_false, Bool.and_eq_true, decide_eq_true_eq, not_and,
        ne_eq, Bool.not_eq_true', decide_not, Bool.not_eq_false'] at hall
      exact not_not.mp (hall dep hdepmem hdepid)
    · -- minimality among claimable candidates
      intro t htmem hts htr htb
      refine oldestFirst_min hof t ?_
      rw [readyCands, List.mem_filter]
      exact ⟨htmem, by simp [hts, htr, htb]⟩
    · -- the claimed row is set to running
      intro r hr hrid
      rw [← hst2] at hr
      simp only [List.mem_map] at hr
      obtain ⟨orig, _, horig⟩ := hr
      by_cases hcase : orig.id = row.id
      · rw [if_pos hcase] at horig
        rw [← horig]
      · rw [if_neg hcase] at horig
        exact absurd (horig ▸ hrid) hcase
    · -- other rows are untouched
      intro r hr hrid
      rw [← hst2] at hr
      simp only [List.mem_map] at hr
      obtain ⟨orig, horigmem, horig⟩ := hr
      by_cases hcase : orig.id = row.id
      · rw [if_pos hcase] at horig
        exact absurd (by rw [← horig]; exact hcase) hrid
      · rw [if_neg hcase] at horig
        rw [← horig]; exact horigmem
    · rw [← hst2]

/-- C8 (witness). -/
theorem C8_claim_ready_task_witness :
    fkEnforced c8Store ∧
    claimReadyTask c8Store "coder" = (some c8Row, c8Store2) ∧
    (c8Row.status = "pending" ∧ c8Row.assigned_to = "coder" ∧
     (∀ d ∈ c8Store.deps, d.1 = c8Row.id →
       ∃ dep ∈ c8Store.tasks, dep.id = d.2 ∧ dep.status = "done") ∧
     (∀ t ∈ c8Store.tasks, t.status = "pending" → t.assigned_to = "coder" →
       depBlocked c8Store t.id = false → c8Row.created_at ≤ t.created_at) ∧
     (∀ r ∈ c8Store2.tasks, r.id = c8Row.id → r.status = "running") ∧
     (∀ r ∈ c8Store2.tasks, r.id ≠ c8Row.id → r ∈ c8Store.tasks) ∧
     c8Store2.deps = c8Store.deps) :=
  ⟨by unfold fkEnforced; decide, by decide,
   C8_claim_ready_task c8Store "coder" c8Row c8Store2
     (by unfold fkEnforced; decide) (by decide)⟩

/-! ### Engine lemmas for the redaction proof -/

/-- Scan contexts compose over append. -/
theorem ctxAfter_append (pw : Bool) (u v : List Char) :
    ctxAfter pw (u ++ v) = ctxAfter (ctxAfter pw u) v := by
  cases hv : v with
  | nil => simp [ctxAfter]
  | cons c cs =>
    unfold ctxAfter
    rw [List.getLast?_append_of_ne_nil u (by simp [hv])]
    cases h : (c :: cs).getLast? with
    | none => simp at h
    | some d => simp [h]

/-- Every engine result splits the input into a consumed prefix (drawn
from the pattern's alphabet) and the remainder, and reports the
wordness of the last consumed character. -/
theorem mrun_decomp : ∀ (f : Nat) (r : RE) (pw : Bool) (s : List Char)
    (x : Bool × List Char), x ∈ mrun f r pw s →
    ∃ u, s = u ++ x.2 ∧ x.1 = ctxAfter pw u ∧ ∀ c ∈ u, alpha r c = true := by
  intro f
  induction f with
  | zero => intro r pw s x hx; simp [mrun] at hx
  | succ f ih =>
    intro r pw s x hx
    cases r with
    | eps =>
      simp only [mrun, List.mem_singleton] at hx
      exact ⟨[], by simp [hx], by simp [hx, ctxAfter], by simp⟩
    | cls k =>
      cases s with
      | nil => simp [mrun] at hx
      | cons c rest =>
        simp only [mrun] at hx
        by_cases hm : k.matches c = true
        · rw [if_pos hm] at hx
          simp only [List.mem_singleton] at hx
          exact ⟨[c], by simp [hx], by simp [hx, ctxAfter],
            by intro d hd; simp at hd; simp [hd, alpha, hm]⟩
        · rw [if_neg hm] at hx
          simp at hx
    | seq a b =>
      simp only [mrun, List.mem_flatMap] at hx
      obtain ⟨y, hy, hxb⟩ := hx
      obtain ⟨u1, hs1, hc1, ha1⟩ := ih a pw s y hy
      obtain ⟨u2, hs2, hc2, ha2⟩ := ih b y.1 y.2 x hxb
      refine ⟨u1 ++ u2, ?_, ?_, ?_⟩
      · rw [hs1, hs2, List.append_assoc]
      · rw [ctxAfter_append, ← hc1, hc2]
      · intro c hc
        rcases List.mem_append.mp hc with h | h
        · simp [alpha, ha1 c h]
        · simp [alpha, ha2 c h]
    | alt a b =>
      simp only [mrun, List.mem_append] at hx
      rcases hx with hx | hx
      · obtain ⟨u, hs, hc, ha⟩ := ih a pw s x hx
        exact ⟨u, hs, hc, fun c h => by simp [alpha, ha c h]⟩
      · obtain ⟨u, hs, hc, ha⟩ := ih b pw s x hx
        exact ⟨u, hs, hc, fun c h => by simp [alpha, ha c h]⟩
    | opt a =>
      simp only [mrun, List.mem_append, List.mem_singleton] at hx
      rcases hx with hx | hx
      · obtain ⟨u, hs, hc, ha⟩ := ih a pw s x hx
        exact ⟨u, hs, hc, fun c h => ha c h⟩
      · exact ⟨[], by simp [hx], by simp [hx, ctxAfter], by simp⟩
    | star a =>
      simp only [mrun, List.mem_append, List.mem_singleton, List.mem_flatMap,
        List.mem_filter] at hx
      rcases hx with ⟨y, ⟨hy, _⟩, hxs⟩ | hx
      · obtain ⟨u1, hs1, hc1, ha1⟩ := ih a pw s y hy
        obtain ⟨u2, hs2, hc2, ha2⟩ := ih (.star a) y.1 y.2 x hxs
        refine ⟨u1 ++ u2, ?_, ?_, ?_⟩
        · rw [hs1, hs2, List.append_assoc]
        · rw [ctxAfter_append, ← hc1, hc2]
        · intro c hc
          rcases List.mem_append.mp hc with h | h
          · exact ha1 c h
          · exact ha2 c h
      · exact ⟨[], by simp [hx], by simp [hx, ctxAfter], by simp⟩
    | wb =>
      simp only [mrun] at hx
      by_cases hw : wbHolds pw s = true
      · rw [if_pos hw] at hx
        simp only [List.mem_singleton] at hx
        exact ⟨[], by simp [hx], by simp [hx, ctxAfter], by simp⟩
      · rw [if_neg hw] at hx
        simp at hx

/-- The remainder of an engine result is no longer than the input. -/
theorem mrun_suffix_le {f : Nat} {r : RE} {pw : Bool} {s : List Char}
    {x : Bool × List Char} (hx : x ∈ mrun f r pw s) :
    x.2.length ≤ s.length := by
  obtain ⟨u, hs, -, -⟩ := mrun_decomp f r pw s x hx
  rw [hs]; simp

/-- Results only grow with fuel. -/
theorem mrun_mono_mem : ∀ (f g : Nat), f ≤ g → ∀ (r : RE) (pw : Bool)
    (s : List Char) (x : Bool × List Char),
    x ∈ mrun f r pw s → x ∈ mrun g r pw s := by
  intro f
  induction f with
  | zero => intro g _ r pw s x hx; simp [mrun] at hx
  | succ f ih =>
    intro g hg r pw s x hx
    obtain ⟨g', rfl⟩ : ∃ g', g = g' + 1 := ⟨g - 1, by omega⟩
    have hfg : f ≤ g' := by omega
    cases r with
    | eps => simpa [mrun] using hx
    | cls k => simpa [mrun] using hx
    | wb => simpa [mrun] using hx
    | seq a b =>
      simp only [mrun, List.mem_flatMap] at hx ⊢
      obtain ⟨y, hy, hxb⟩ := hx
      exact ⟨y, ih g' hfg a pw s y hy, ih g' hfg b y.1 y.2 x hxb⟩
    | alt a b =>
      simp only [mrun, List.mem_append] at hx ⊢
      rcases hx with hx | hx
      · exact Or.inl (ih g' hfg a pw s x hx)
      · exact Or.inr (ih g' hfg b pw s x hx)
    | opt a =>
      simp only [mrun, List.mem_append, List.mem_singleton] at hx ⊢
      rcases hx with hx | hx
      · exact Or.inl (ih g' hfg a pw s x hx)
      · exact Or.inr hx
    | star a =>
      simp only [mrun, List.mem_append, List.mem_singleton, List.mem_flatMap,
        List.mem_filter] at hx ⊢
      rcases hx with ⟨y, ⟨hy, hylen⟩, hxs⟩ | hx
      · exact Or.inl ⟨y, ⟨ih g' hfg a pw s y hy, hylen⟩, ih g' hfg _ y.1 y.2 x hxs⟩
      · exact Or.inr hx

/-- Every fuel requirement is positive. -/
theorem needed_pos (r : RE) (n : Nat) : 1 ≤ RE.needed r n := by
  cases r with
  | star a => cases n <;> simp [RE.needed, starNeeded]
  | eps => simp [RE.needed]
  | cls k => simp [RE.needed]
  | wb => simp [RE.needed]
  | seq a b => simp [RE.needed]
  | alt a b => simp [RE.needed]
  | opt a => simp [RE.needed]

/-- `starNeeded` grows with the length bound. -/
theorem starNeeded_le_succ (base : Nat → Nat) (n : Nat) :
    starNeeded base n ≤ starNeeded base (n + 1) := by
  have h : starNeeded base (n + 1) = 1 + max (base (n + 1)) (starNeeded base n) := rfl
  rw [h]
  exact le_trans (le_max_right _ _) (Nat.le_add_left _ 1)

theorem starNeeded_mono (base : Nat → Nat) :
    ∀ {m n : Nat}, m ≤ n → starNeeded base m ≤ starNeeded base n := by
  intro m n h
  induction n with
  | zero => rw [Nat.le_zero.mp h]
  | succ n ihn =>
    rcases Nat.lt_or_ge m (n + 1) with hlt | hge
    · exact le_trans (ihn (by omega)) (starNeeded_le_succ base n)
    · rw [Nat.le_antisymm h hge]

/-- Fuel requirements grow with the length bound. -/
theorem needed_mono (r : RE) : ∀ {m n : Nat}, m ≤ n →
    RE.needed r m ≤ RE.needed r n := by
  induction r with
  | eps => intro m n h; simp [RE.needed]
  | cls k => intro m n h; simp [RE.needed]
  | wb => intro m n h; simp [RE.needed]
  | seq a b iha ihb =>
    intro m n h
    simp only [RE.needed]
    have := iha h; have := ihb h
    omega
  | alt a b iha ihb =>
    intro m n h
    simp only [RE.needed]
    have := iha h; have := ihb h
    omega
  | opt a iha =>
    intro m n h
    simp only [RE.needed]
    have := iha h
    omega
  | star a iha =>
    intro m n h
    exact starNeeded_mono (RE.needed a) h

/-- Beyond the `RE.needed` budget the engine's result is stable. -/
theorem mrun_stable : ∀ (n : Nat) (r : RE) (s : List Char) (pw : Bool) (f g : Nat),
    s.length ≤ n → RE.needed r n ≤ f → RE.needed r n ≤ g →
    mrun f r pw s = mrun g r pw s := by
  intro n
  induction n using Nat.strong_induction_on with
  | _ n ihn =>
    intro r
    induction r with
    | eps =>
      intro s pw f g hs hf hg
      simp only [RE.needed] at hf hg
      obtain ⟨f', rfl⟩ : ∃ k, f = k + 1 := ⟨f - 1, by omega⟩
      obtain ⟨g', rfl⟩ : ∃ k, g = k + 1 := ⟨g - 1, by omega⟩
      simp [mrun]
    | cls k =>
      intro s pw f g hs hf hg
      simp only [RE.needed] at hf hg
      obtain ⟨f', rfl⟩ : ∃ k, f = k + 1 := ⟨f - 1, by omega⟩
      obtain ⟨g', rfl⟩ : ∃ k, g = k + 1 := ⟨g - 1, by omega⟩
      simp [mrun]
    | wb =>
      intro s pw f g hs hf hg
      simp only [RE.needed] at hf hg
      obtain ⟨f', rfl⟩ : ∃ k, f = k + 1 := ⟨f - 1, by omega⟩
      obtain ⟨g', rfl⟩ : ∃ k, g = k + 1 := ⟨g - 1, by omega⟩
      simp [mrun]
    | seq a b iha ihb =>
      intro s pw f g hs hf hg
      simp only [RE.needed] at hf hg
      have hma := le_max_left (RE.needed a n) (RE.needed b n)
      have hmb := le_max_right (RE.needed a n) (RE.needed b n)
      obtain ⟨f', rfl⟩ : ∃ k, f = k + 1 := ⟨f - 1, by omega⟩
      obtain ⟨g', rfl⟩ : ∃ k, g = k + 1 := ⟨g - 1, by omega⟩
      simp only [mrun]
      rw [iha s pw f' g' hs (by omega) (by omega)]
      apply List.flatMap_congr
      intro y hy
      exact ihb y.2 y.1 f' g' (le_trans (mrun_suffix_le hy) hs) (by omega) (by omega)
    | alt a b iha ihb =>
      intro s pw f g hs hf hg
      simp only [RE.needed] at hf hg
      have hma := le_max_left (RE.needed a n) (RE.needed b n)
      have hmb := le_max_right (RE.needed a n) (RE.needed b n)
      obtain ⟨f', rfl⟩ : ∃ k, f = k + 1 := ⟨f - 1, by omega⟩
      obtain ⟨g', rfl⟩ : ∃ k, g = k + 1 := ⟨g - 1, by omega⟩
      simp only [mrun]
      rw [iha s pw f' g' hs (by omega) (by omega),
        ihb s pw f' g' hs (by omega) (by omega)]
    | opt a iha =>
      intro s pw f g hs hf hg
      simp only [RE.needed] at hf hg
      obtain ⟨f', rfl⟩ : ∃ k, f = k + 1 := ⟨f - 1, by omega⟩
      obtain ⟨g', rfl⟩ : ∃ k, g = k + 1 := ⟨g - 1, by omega⟩
      simp only [mrun]
      rw [iha s pw f' g' hs (by omega) (by omega)]
    | star a iha =>
      intro s pw f g hs hf hg
      have hpos := needed_pos (.star a) n
      obtain ⟨f', rfl⟩ : ∃ k, f = k + 1 := ⟨f - 1, by omega⟩
      obtain ⟨g', rfl⟩ : ∃ k, g = k + 1 := ⟨g - 1, by omega⟩
      have hbody : RE.needed a n ≤ f' ∧ RE.needed a n ≤ g' := by
        cases n with
        | zero =>
          have hEq : RE.needed (.star a) 0 = 1 + RE.needed a 0 := rfl
          rw [hEq] at hf hg
          exact ⟨by omega, by omega⟩
        | succ m =>
          have hEq : RE.needed (.star a) (m + 1) =
              1 + max (RE.needed a (m + 1)) (RE.needed (.star a) m) := rfl
          rw [hEq] at hf hg
          have := le_max_left (RE.needed a (m + 1)) (RE.needed (.star a) m)
          exact ⟨by omega, by omega⟩
      simp only [mrun]
      rw [iha s pw f' g' hs hbody.1 hbody.2]
      congr 1
      apply List.flatMap_congr
      intro y hy
      rw [List.mem_filter] at hy
      obtain ⟨hymem, hylen⟩ := hy
      have hlen : y.2.length < s.length := by simpa using hylen
      obtain ⟨m, rfl⟩ : ∃ m, n = m + 1 := ⟨n - 1, by omega⟩
      have hEq : RE.needed (.star a) (m + 1) =
          1 + max (RE.needed a (m + 1)) (RE.needed (.star a) m) := rfl
      rw [hEq] at hf hg
      have := le_max_right (RE.needed a (m + 1)) (RE.needed (.star a) m)
      exact ihn m (by omega) (.star a) y.2 y.1 f' g' (by omega) (by omega) (by omega)

/-- `headSig` only looks at the head, so a common prefix preserves it. -/
theorem headSig_append (w rem rem2 : List Char)
    (h : headSig rem = headSig rem2) :
    headSig (w ++ rem) = headSig (w ++ rem2) := by
  cases w with
  | nil => simpa using h
  | cons c cs => simp [headSig]

/-- The word-boundary test only depends on `headSig`. -/
theorem wbHolds_congr (pw : Bool) (s1 s2 : List Char)
    (h : headSig s1 = headSig s2) : wbHolds pw s1 = wbHolds pw s2 := by
  cases s1 with
  | nil =>
    cases s2 with
    | nil => rfl
    | cons c cs => simp [headSig] at h
  | cons c cs =>
    cases s2 with
    | nil => simp [headSig] at h
    | cons d ds =>
      simp only [headSig, Option.some.injEq] at h
      simp [wbHolds, h]

/-- An append that returns the right factor has an empty left factor. -/
theorem append_eq_self_nil {u rem : List Char} (h : u ++ rem = rem) : u = [] := by
  have hlen := congrArg List.length h
  simp only [List.length_append] at hlen
  have hu : u.length = 0 := by omega
  exact List.length_eq_zero.mp hu

/-- Replaying a derivation with a different remainder: if a result
consumed `u` and left `rem`, the same derivation runs against any
continuation with the same `headSig` (the word-boundary test never looks
further than one character past the consumed prefix). -/
theorem mrun_replay : ∀ (f : Nat) (r : RE) (pw : Bool) (u rem rem2 : List Char)
    (pw2 : Bool), headSig rem = headSig rem2 →
    (pw2, rem) ∈ mrun f r pw (u ++ rem) →
    (pw2, rem2) ∈ mrun f r pw (u ++ rem2) := by
  intro f
  induction f with
  | zero => intro r pw u rem rem2 pw2 _ hx; simp [mrun] at hx
  | succ f ih =>
    intro r pw u rem rem2 pw2 hsig hx
    cases r with
    | eps =>
      simp only [mrun, List.mem_singleton, Prod.mk.injEq] at hx ⊢
      obtain ⟨hpw, hrem⟩ := hx
      have hu : u = [] := append_eq_self_nil hrem.symm
      exact ⟨hpw, by simp [hu]⟩
    | cls k =>
      cases u with
      | nil =>
        simp only [List.nil_append] at hx ⊢
        cases rem with
        | nil => simp [mrun] at hx
        | cons c r =>
          simp only [mrun] at hx
          by_cases hm : k.matches c = true
          · rw [if_pos hm] at hx
            simp only [List.mem_singleton, Prod.mk.injEq] at hx
            have := congrArg List.length hx.2
            simp at this
          · rw [if_neg hm] at hx
            simp at hx
      | cons c u' =>
        simp only [List.cons_append, mrun] at hx ⊢
        by_cases hm : k.matches c = true
        · rw [if_pos hm] at hx ⊢
          simp only [List.mem_singleton, Prod.mk.injEq] at hx ⊢
          obtain ⟨hpw, hrem⟩ := hx
          have hu : u' = [] := append_eq_self_nil hrem.symm
          subst hu
          simp only [List.nil_append]
          exact ⟨hpw, trivial⟩
        · rw [if_neg hm] at hx
          simp at hx
    | wb =>
      simp only [mrun] at hx ⊢
      by_cases hw : wbHolds pw (u ++ rem) = true
      · rw [if_pos hw] at hx
        simp only [List.mem_singleton, Prod.mk.injEq] at hx
        obtain ⟨hpw, hrem⟩ := hx
        have hu : u = [] := append_eq_self_nil hrem.symm
        subst hu
        simp only [List.nil_append] at hw ⊢
        rw [if_pos (by rw [← wbHolds_congr pw rem rem2 hsig]; exact hw)]
        simp [hpw, hrem]
      · rw [if_neg hw] at hx
        simp at hx
    | seq a b =>
      simp only [mrun, List.mem_flatMap] at hx ⊢
      obtain ⟨y, hy, hxb⟩ := hx
      obtain ⟨v, hv, -, -⟩ := mrun_decomp f a pw (u ++ rem) y hy
      obtain ⟨w, hw, -, -⟩ := mrun_decomp f b y.1 y.2 (pw2, rem) hxb
      simp only at hw
      have huvw : u = v ++ w := by
        have h1 : u ++ rem = (v ++ w) ++ rem := by
          rw [List.append_assoc, ← hw, ← hv]
        exact List.append_cancel_right h1
      have hy2 : y = (y.1, w ++ rem) := by rw [← hw]
      have hsigw : headSig (w ++ rem) = headSig (w ++ rem2) :=
        headSig_append w rem rem2 hsig
      have hya : (y.1, w ++ rem2) ∈ mrun f a pw (v ++ (w ++ rem2)) := by
        apply ih a pw v (w ++ rem) (w ++ rem2) y.1 hsigw
        rw [← hy2]
        rw [huvw, List.append_assoc] at hy
        exact hy
      have hxb2 : (pw2, rem2) ∈ mrun f b y.1 (w ++ rem2) := by
        apply ih b y.1 w rem rem2 pw2 hsig
        rw [← hw]
        exact hxb
      refine ⟨(y.1, w ++ rem2), ?_, hxb2⟩
      rw [huvw, List.append_assoc]
      exact hya
    | alt a b =>
      simp only [mrun, List.mem_append] at hx ⊢
      rcases hx with hx | hx
      · exact Or.inl (ih a pw u rem rem2 pw2 hsig hx)
      · exact Or.inr (ih b pw u rem rem2 pw2 hsig hx)
    | opt a =>
      simp only [mrun, List.mem_append, List.mem_singleton] at hx ⊢
      rcases hx with hx | hx
      · exact Or.inl (ih a pw u rem rem2 pw2 hsig hx)
      · simp only [Prod.mk.injEq] at hx
        obtain ⟨hpw, hrem⟩ := hx
        have hu : u = [] := append_eq_self_nil hrem.symm
        subst hu
        exact Or.inr (by simp [hpw])
    | star a =>
      simp only [mrun, List.mem_append, List.mem_singleton, List.mem_flatMap,
        List.mem_filter] at hx ⊢
      rcases hx with ⟨y, ⟨hy, hylen⟩, hxs⟩ | hx
      · obtain ⟨v, hv, -, -⟩ := mrun_decomp f a pw (u ++ rem) y hy
        obtain ⟨w, hw, -, -⟩ := mrun_decomp f (.star a) y.1 y.2 (pw2, rem) hxs
        simp only at hw
        have huvw : u = v ++ w := by
          have h1 : u ++ rem = (v ++ w) ++ rem := by
            rw [List.append_assoc, ← hw, ← hv]
          exact List.append_cancel_right h1
        have hy2 : y = (y.1, w ++ rem) := by rw [← hw]
        have hsigw : headSig (w ++ rem) = headSig (w ++ rem2) :=
          headSig_append w rem rem2 hsig
        have hya : (y.1, w ++ rem2) ∈ mrun f a pw (v ++ (w ++ rem2)) := by
          apply ih a pw v (w ++ rem) (w ++ rem2) y.1 hsigw
          rw [← hy2]
          rw [huvw, List.append_assoc] at hy
          exact hy
        have hxs2 : (pw2, rem2) ∈ mrun f (.star a) y.1 (w ++ rem2) := by
          apply ih (.star a) y.1 w rem rem2 pw2 hsig
          rw [← hw]
          exact hxs
        have hvne : v ≠ [] := by
          intro hvnil
          rw [hy2] at hylen
          simp only at hylen
          rw [hv, hy2] at hylen
          simp only at hylen
          rw [hvnil] at hylen
          simp at hylen
        refine Or.inl ⟨(y.1, w ++ rem2), ⟨?_, ?_⟩, hxs2⟩
        · rw [huvw, List.append_assoc]
          exact hya
        · simp only [List.length_append]
          rw [huvw]
          simp only [List.length_append]
          have : 0 < v.length := List.length_pos.mpr hvne
          simp
          omega
      · simp only [Prod.mk.injEq] at hx
        obtain ⟨hpw, hrem⟩ := hx
        have hu : u = [] := append_eq_self_nil hrem.symm
        subst hu
        exact Or.inr (by simp [hpw])

/-- For a pattern without `\b`, a derivation replays against ANY
continuation (nothing ever inspects past the consumed prefix). -/
theorem mrun_replay_noWb : ∀ (f : Nat) (r : RE), hasWb r = false →
    ∀ (pw : Bool) (u rem rem2 : List Char) (pw2 : Bool),
    (pw2, rem) ∈ mrun f r pw (u ++ rem) →
    (pw2, rem2) ∈ mrun f r pw (u ++ rem2) := by
  intro f
  induction f with
  | zero => intro r _ pw u rem rem2 pw2 hx; simp [mrun] at hx
  | succ f ih =>
    intro r hwb pw u rem rem2 pw2 hx
    cases r with
    | eps =>
      simp only [mrun, List.mem_singleton, Prod.mk.injEq] at hx ⊢
      obtain ⟨hpw, hrem⟩ := hx
      have hu : u = [] := append_eq_self_nil hrem.symm
      exact ⟨hpw, by simp [hu]⟩
    | cls k =>
      cases u with
      | nil =>
        simp only [List.nil_append] at hx ⊢
        cases rem with
        | nil => simp [mrun] at hx
        | cons c r =>
          simp only [mrun] at hx
          by_cases hm : k.matches c = true
          · rw [if_pos hm] at hx
            simp only [List.mem_singleton, Prod.mk.injEq] at hx
            have := congrArg List.length hx.2
            simp at this
          · rw [if_neg hm] at hx
            simp at hx
      | cons c u' =>
        simp only [List.cons_append, mrun] at hx ⊢
        by_cases hm : k.matches c = true
        · rw [if_pos hm] at hx ⊢
          simp only [List.mem_singleton, Prod.mk.injEq] at hx ⊢
          obtain ⟨hpw, hrem⟩ := hx
          have hu : u' = [] := append_eq_self_nil hrem.symm
          subst hu
          simp only [List.nil_append]
          exact ⟨hpw, trivial⟩
        · rw [if_neg hm] at hx
          simp at hx
    | wb => simp [hasWb] at hwb
    | seq a b =>
      simp only [hasWb, Bool.or_eq_false_iff] at hwb
      simp only [mrun, List.mem_flatMap] at hx ⊢
      obtain ⟨y, hy, hxb⟩ := hx
      obtain ⟨v, hv, -, -⟩ := mrun_decomp f a pw (u ++ rem) y hy
      obtain ⟨w, hw, -, -⟩ := mrun_decomp f b y.1 y.2 (pw2, rem) hxb
      simp only at hw
      have huvw : u = v ++ w := by
        have h1 : u ++ rem = (v ++ w) ++ rem := by
          rw [List.append_assoc, ← hw, ← hv]
        exact List.append_cancel_right h1
      have hy2 : y = (y.1, w ++ rem) := by rw [← hw]
      have hya : (y.1, w ++ rem2) ∈ mrun f a pw (v ++ (w ++ rem2)) := by
        apply ih a hwb.1 pw v (w ++ rem) (w ++ rem2) y.1
        rw [← hy2]
        rw [huvw, List.append_assoc] at hy
        exact hy
      have hxb2 : (pw2, rem2) ∈ mrun f b y.1 (w ++ rem2) := by
        apply ih b hwb.2 y.1 w rem rem2 pw2
        rw [← hw]
        exact hxb
      refine ⟨(y.1, w ++ rem2), ?_, hxb2⟩
      rw [huvw, List.append_assoc]
      exact hya
    | alt a b =>
      simp only [hasWb, Bool.or_eq_false_iff] at hwb
      simp only [mrun, List.mem_append] at hx ⊢
      rcases hx with hx | hx
      · exact Or.inl (ih a hwb.1 pw u rem rem2 pw2 hx)
      · exact Or.inr (ih b hwb.2 pw u rem rem2 pw2 hx)
    | opt a =>
      simp only [hasWb] at hwb
      simp only [mrun, List.mem_append, List.mem_singleton] at hx ⊢
      rcases hx with hx | hx
      · exact Or.inl (ih a hwb pw u rem rem2 pw2 hx)
      · simp only [Prod.mk.injEq] at hx
        obtain ⟨hpw, hrem⟩ := hx
        have hu : u = [] := append_eq_self_nil hrem.symm
        subst hu
        exact Or.inr (by simp [hpw])
    | star a =>
      simp only [hasWb] at hwb
      simp only [mrun, List.mem_append, List.mem_singleton, List.mem_flatMap,
        List.mem_filter] at hx ⊢
      rcases hx with ⟨y, ⟨hy, hylen⟩, hxs⟩ | hx
      · obtain ⟨v, hv, -, -⟩ := mrun_decomp f a pw (u ++ rem) y hy
        obtain ⟨w, hw, -, -⟩ := mrun_decomp f (.star a) y.1 y.2 (pw2, rem) hxs
        simp only at hw
        have huvw : u = v ++ w := by
          have h1 : u ++ rem = (v ++ w) ++ rem := by
            rw [List.append_assoc, ← hw, ← hv]
          exact List.append_cancel_right h1
        have hy2 : y = (y.1, w ++ rem) := by rw [← hw]
        have hya : (y.1, w ++ rem2) ∈ mrun f a pw (v ++ (w ++ rem2)) := by
          apply ih a hwb pw v (w ++ rem) (w ++ rem2) y.1
          rw [← hy2]
          rw [huvw, List.append_assoc] at hy
          exact hy
        have hxs2 : (pw2, rem2) ∈ mrun f (.star a) y.1 (w ++ rem2) := by
          apply ih (.star a) (by simpa [hasWb] using hwb) y.1 w rem rem2 pw2
          rw [← hw]
          exact hxs
        have hvne : v ≠ [] := by
          intro hvnil
          rw [hy2] at hylen
          simp only at hylen
          rw [hv, hy2] at hylen
          simp only at hylen
          rw [hvnil] at hylen
          simp at hylen
        refine Or.inl ⟨(y.1, w ++ rem2), ⟨?_, ?_⟩, hxs2⟩
        · rw [huvw, List.append_assoc]
          exact hya
        · simp only [List.length_append]
          rw [huvw]
          simp only [List.length_append]
          have : 0 < v.length := List.length_pos.mpr hvne
          simp
          omega
      · simp only [Prod.mk.injEq] at hx
        obtain ⟨hpw, hrem⟩ := hx
        have hu : u = [] := append_eq_self_nil hrem.symm
        subst hu
        exact Or.inr (by simp [hpw])

/-- For a pattern without `\b`, matching does not depend on the left
context. -/
theorem mrun_noWb_ctx : ∀ (f : Nat) (r : RE), hasWb r = false →
    ∀ (pw1 pw2 : Bool) (s : List Char) (x1 : Bool) (rem : List Char),
    (x1, rem) ∈ mrun f r pw1 s → ∃ x2, (x2, rem) ∈ mrun f r pw2 s := by
  intro f
  induction f with
  | zero => intro r _ pw1 pw2 s x1 rem hx; simp [mrun] at hx
  | succ f ih =>
    intro r hwb pw1 pw2 s x1 rem hx
    cases r with
    | eps =>
      simp only [mrun, List.mem_singleton, Prod.mk.injEq] at hx ⊢
      exact ⟨pw2, rfl, hx.2⟩
    | cls k =>
      cases s with
      | nil => simp [mrun] at hx
      | cons c rest =>
        simp only [mrun] at hx ⊢
        by_cases hm : k.matches c = true
        · rw [if_pos hm] at hx ⊢
          simp only [List.mem_singleton, Prod.mk.injEq] at hx ⊢
          exact ⟨isWordChar c, rfl, hx.2⟩
        · rw [if_neg hm] at hx
          simp at hx
    | wb => simp [hasWb] at hwb
    | seq a b =>
      simp only [hasWb, Bool.or_eq_false_iff] at hwb
      simp only [mrun, List.mem_flatMap] at hx ⊢
      obtain ⟨y, hy, hxb⟩ := hx
      obtain ⟨y2, hy2⟩ := ih a hwb.1 pw1 pw2 s y.1 y.2 (by simpa using hy)
      obtain ⟨x2, hx2⟩ := ih b hwb.2 y.1 y2 y.2 x1 rem hxb
      exact ⟨x2, (y2, y.2), hy2, hx2⟩
    | alt a b =>
      simp only [hasWb, Bool.or_eq_false_iff] at hwb
      simp only [mrun, List.mem_append] at hx ⊢
      rcases hx with hx | hx
      · obtain ⟨x2, hx2⟩ := ih a hwb.1 pw1 pw2 s x1 rem hx
        exact ⟨x2, Or.inl hx2⟩
      · obtain ⟨x2, hx2⟩ := ih b hwb.2 pw1 pw2 s x1 rem hx
        exact ⟨x2, Or.inr hx2⟩
    | opt a =>
      simp only [hasWb] at hwb
      simp only [mrun, List.mem_append, List.mem_singleton] at hx ⊢
      rcases hx with hx | hx
      · obtain ⟨x2, hx2⟩ := ih a hwb pw1 pw2 s x1 rem hx
        exact ⟨x2, Or.inl hx2⟩
      · simp only [Prod.mk.injEq] at hx
        exact ⟨pw2, Or.inr (by simp [hx.2])⟩
    | star a =>
      simp only [hasWb] at hwb
      simp only [mrun, List.mem_append, List.mem_singleton, List.mem_flatMap,
        List.mem_filter] at hx ⊢
      rcases hx with ⟨y, ⟨hy, hylen⟩, hxs⟩ | hx
      · obtain ⟨y2, hy2⟩ := ih a hwb pw1 pw2 s y.1 y.2 (by simpa using hy)
        obtain ⟨x2, hx2⟩ := ih (.star a) (by simpa [hasWb] using hwb) y.1 y2 y.2 x1 rem hxs
        exact ⟨x2, Or.inl ⟨(y2, y.2), ⟨hy2, hylen⟩, hx2⟩⟩
      · simp only [Prod.mk.injEq] at hx
        exact ⟨pw2, Or.inr (by simp [hx.2])⟩

/-- A character between `A` and `Z` is a word character. -/
theorem word_AZ (c : Char) (h1 : 'A' ≤ c) (h2 : c ≤ 'Z') : isWordChar c = true := by
  simp only [Char.le_def] at h1 h2
  have hu : c.isUpper = true := by
    simp only [Char.isUpper, ge_iff_le, Bool.and_eq_true, decide_eq_true_eq]
    exact ⟨h1, h2⟩
  simp [isWordChar, Char.isAlphanum, Char.isAlpha, hu]

/-- A character between `a` and `z` is a word character. -/
theorem word_az (c : Char) (h1 : 'a' ≤ c) (h2 : c ≤ 'z') : isWordChar c = true := by
  simp only [Char.le_def] at h1 h2
  have hl : c.isLower = true := by
    simp only [Char.isLower, ge_iff_le, Bool.and_eq_true, decide_eq_true_eq]
    exact ⟨h1, h2⟩
  simp [isWordChar, Char.isAlphanum, Char.isAlpha, hl]

/-- A character between two digits is a word character. -/
theorem word_digit (c : Char) (h1 : (48 : UInt32) ≤ c.val)
    (h2 : c.val ≤ (57 : UInt32)) : isWordChar c = true := by
  have hd : c.isDigit = true := by
    simp only [Char.isDigit, ge_iff_le, Bool.and_eq_true, decide_eq_true_eq]
    exact ⟨h1, h2⟩
  simp [isWordChar, Char.isAlphanum, hd]

/-- Characters in the certified ranges are word characters. -/
theorem clsWordOnly_sound (k : CharCls) (c : Char)
    (hk : clsWordOnly k = true) (hm : k.matches c = true) :
    isWordChar c = true := by
  cases k with
  | digit =>
    simp only [CharCls.matches] at hm
    simp [isWordChar, Char.isAlphanum, hm]
  | space => simp [clsWordOnly] at hk
  | dot => simp [clsWordOnly] at hk
  | lit a =>
    simp only [CharCls.matches, decide_eq_true_eq] at hm
    subst hm
    simpa [clsWordOnly] using hk
  | litI a => simp [clsWordOnly] at hk
  | oneOf cs =>
    simp only [CharCls.matches] at hm
    simp only [clsWordOnly, List.all_eq_true] at hk
    exact hk c (List.mem_of_elem_eq_true hm)
  | ranges rs =>
    simp only [CharCls.matches, List.any_eq_true, Bool.and_eq_true,
      decide_eq_true_eq] at hm
    obtain ⟨r, hr, hle1, hle2⟩ := hm
    obtain ⟨lo, hi⟩ := r
    simp only [clsWordOnly, List.all_eq_true] at hk
    have hrk := hk (lo, hi) hr
    simp only [Bool.or_eq_true, Bool.and_eq_true, decide_eq_true_eq] at hrk
    rcases hrk with ((⟨e1, e2⟩ | ⟨e1, e2⟩) | ⟨e1, e2⟩) | ⟨e1, e2⟩ <;>
      subst e1 <;> subst e2
    · exact word_AZ c hle1 hle2
    · exact word_az c hle1 hle2
    · simp only [Char.le_def] at hle1 hle2
      exact word_digit c hle1 hle2
    · simp only [Char.le_def] at hle1 hle2
      exact word_digit c (UInt32.le_trans (by decide) hle1)
        (UInt32.le_trans hle2 (by decide))

/-- Characters in the certified classes are non-word characters. -/
theorem clsNonWordOnly_sound (k : CharCls) (c : Char)
    (hk : clsNonWordOnly k = true) (hm : k.matches c = true) :
    isWordChar c = false := by
  cases k with
  | lit a =>
    simp only [CharCls.matches, decide_eq_true_eq] at hm
    subst hm
    simpa [clsNonWordOnly] using hk
  | oneOf cs =>
    simp only [CharCls.matches] at hm
    simp only [clsNonWordOnly, List.all_eq_true] at hk
    simpa using hk c (List.mem_of_elem_eq_true hm)
  | digit => simp [clsNonWordOnly] at hk
  | space => simp [clsNonWordOnly] at hk
  | dot => simp [clsNonWordOnly] at hk
  | litI a => simp [clsNonWordOnly] at hk
  | ranges rs => simp [clsNonWordOnly] at hk

/-- A result that consumed nothing certifies `canSkip`. -/
theorem mrun_skip : ∀ (f : Nat) (r : RE) (pw : Bool) (s : List Char)
    (x : Bool × List Char), x ∈ mrun f r pw s → x.2 = s → canSkip r = true := by
  intro f
  induction f with
  | zero => intro r pw s x hx; simp [mrun] at hx
  | succ f ih =>
    intro r pw s x hx hrem
    cases r with
    | eps => rfl
    | wb => rfl
    | opt a => rfl
    | star a => rfl
    | cls k =>
      cases s with
      | nil => simp [mrun] at hx
      | cons c rest =>
        simp only [mrun] at hx
        by_cases hm : k.matches c = true
        · rw [if_pos hm] at hx
          simp only [List.mem_singleton] at hx
          rw [hx] at hrem
          simp only at hrem
          have := congrArg List.length hrem
          simp at this
        · rw [if_neg hm] at hx
          simp at hx
    | seq a b =>
      simp only [mrun, List.mem_flatMap] at hx
      obtain ⟨y, hy, hxb⟩ := hx
      obtain ⟨u1, hv, -, -⟩ := mrun_decomp f a pw s y hy
      obtain ⟨u2, hw, -, -⟩ := mrun_decomp f b y.1 y.2 x hxb
      have hlen1 := congrArg List.length hv
      have hlen2 := congrArg List.length hw
      have hlen3 := congrArg List.length hrem
      simp only [List.length_append] at hlen1 hlen2 hlen3
      have hu1 : u1 = [] := List.length_eq_zero.mp (by omega)
      have hu2 : u2 = [] := List.length_eq_zero.mp (by omega)
      have hys : y.2 = s := by rw [hv, hu1, List.nil_append]
      have hxy : x.2 = y.2 := by rw [hw, hu2, List.nil_append]
      simp only [canSkip, Bool.and_eq_true]
      exact ⟨ih a pw s y hy hys, ih b y.1 y.2 x hxb hxy⟩
    | alt a b =>
      simp only [mrun, List.mem_append] at hx
      simp only [canSkip, Bool.or_eq_true]
      rcases hx with hx | hx
      · exact Or.inl (ih a pw s x hx hrem)
      · exact Or.inr (ih b pw s x hx hrem)

/-- Patterns that begin with `\b` only succeed on a word boundary. -/
theorem mrun_startsWb : ∀ (f : Nat) (r : RE), startsWb r = true →
    ∀ (pw : Bool) (s : List Char) (x : Bool × List Char),
    x ∈ mrun f r pw s → wbHolds pw s = true := by
  intro f
  induction f with
  | zero => intro r _ pw s x hx; simp [mrun] at hx
  | succ f ih =>
    intro r hr pw s x hx
    cases r with
    | eps => simp [startsWb] at hr
    | cls k => simp [startsWb] at hr
    | opt a => simp [startsWb] at hr
    | star a => simp [startsWb] at hr
    | wb =>
      simp only [mrun] at hx
      by_cases hw : wbHolds pw s = true
      · exact hw
      · rw [if_neg hw] at hx; simp at hx
    | seq a b =>
      simp only [startsWb] at hr
      simp only [mrun, List.mem_flatMap] at hx
      obtain ⟨y, hy, -⟩ := hx
      exact ih a hr pw s y hy
    | alt a b =>
      simp only [startsWb, Bool.and_eq_true] at hr
      simp only [mrun, List.mem_append] at hx
      rcases hx with hx | hx
      · exact ih a hr.1 pw s x hx
      · exact ih b hr.2 pw s x hx

/-- Patterns that end with `\b` leave a word boundary at the remainder. -/
theorem mrun_endsWb : ∀ (f : Nat) (r : RE), endsWb r = true →
    ∀ (pw : Bool) (s : List Char) (x : Bool × List Char),
    x ∈ mrun f r pw s → wbHolds x.1 x.2 = true := by
  intro f
  induction f with
  | zero => intro r _ pw s x hx; simp [mrun] at hx
  | succ f ih =>
    intro r hr pw s x hx
    cases r with
    | eps => simp [endsWb] at hr
    | cls k => simp [endsWb] at hr
    | opt a => simp [endsWb] at hr
    | star a => simp [endsWb] at hr
    | wb =>
      simp only [mrun] at hx
      by_cases hw : wbHolds pw s = true
      · rw [if_pos hw] at hx
        simp only [List.mem_singleton] at hx
        rw [hx]
        exact hw
      · rw [if_neg hw] at hx; simp at hx
    | seq a b =>
      simp only [endsWb] at hr
      simp only [mrun, List.mem_flatMap] at hx
      obtain ⟨y, -, hxb⟩ := hx
      exact ih b hr y.1 y.2 x hxb
    | alt a b =>
      simp only [endsWb, Bool.and_eq_true] at hr
      simp only [mrun, List.mem_append] at hx
      rcases hx with hx | hx
      · exact ih a hr.1 pw s x hx
      · exact ih b hr.2 pw s x hx

/-- The first consumed character of a consuming result is certified by
`firstOnly`. -/
theorem mrun_firstOnly (clsP : CharCls → Bool) (P : Char → Bool)
    (hcls : ∀ k c, clsP k = true → k.matches c = true → P c = true) :
    ∀ (f : Nat) (r : RE), firstOnly clsP r = true →
    ∀ (pw : Bool) (c : Char) (t : List Char) (x : Bool × List Char),
    x ∈ mrun f r pw (c :: t) → x.2 ≠ c :: t → P c = true := by
  intro f
  induction f with
  | zero => intro r _ pw c t x hx; simp [mrun] at hx
  | succ f ih =>
    intro r hr pw c t x hx hne
    cases r with
    | eps =>
      simp only [mrun, List.mem_singleton] at hx
      exact absurd (by rw [hx]) hne
    | wb =>
      simp only [mrun] at hx
      by_cases hw : wbHolds pw (c :: t) = true
      · rw [if_pos hw] at hx
        simp only [List.mem_singleton] at hx
        exact absurd (by rw [hx]) hne
      · rw [if_neg hw] at hx; simp at hx
    | cls k =>
      simp only [mrun] at hx
      by_cases hm : k.matches c = true
      · exact hcls k c (by simpa [firstOnly] using hr) hm
      · rw [if_neg hm] at hx; simp at hx
    | seq a b =>
      simp only [firstOnly, Bool.and_eq_true, Bool.or_eq_true,
        Bool.not_eq_true'] at hr
      simp only [mrun, List.mem_flatMap] at hx
      obtain ⟨y, hy, hxb⟩ := hx
      by_cases hys : y.2 = c :: t
      · have hskip : canSkip a = true := mrun_skip f a pw (c :: t) y hy hys
        have hfb : firstOnly clsP b = true := by
          rcases hr.2 with h | h
          · rw [hskip] at h; cases h
          · exact h
        rw [hys] at hxb
        exact ih b hfb y.1 c t x hxb hne
      · exact ih a hr.1 pw c t y hy hys
    | alt a b =>
      simp only [firstOnly, Bool.and_eq_true] at hr
      simp only [mrun, List.mem_append] at hx
      rcases hx with hx | hx
      · exact ih a hr.1 pw c t x hx hne
      · exact ih b hr.2 pw c t x hx hne
    | opt a =>
      simp only [firstOnly] at hr
      simp only [mrun, List.mem_append, List.mem_singleton] at hx
      rcases hx with hx | hx
      · exact ih a hr pw c t x hx hne
      · exact absurd (by rw [hx]) hne
    | star a =>
      simp only [firstOnly] at hr
      simp only [mrun, List.mem_append, List.mem_singleton, List.mem_flatMap,
        List.mem_filter] at hx
      rcases hx with ⟨y, ⟨hy, hylen⟩, -⟩ | hx
      · have hyne : y.2 ≠ c :: t := by
          intro heq
          rw [heq] at hylen
          simp at hylen
        exact ih a hr pw c t y hy hyne
      · exact absurd (by rw [hx]) hne

/-- The last consumed character of a consuming result is certified by
`lastOnly`, and the reported context is its wordness. -/
theorem mrun_lastOnly (clsP : CharCls → Bool) (P : Char → Bool)
    (hcls : ∀ k c, clsP k = true → k.matches c = true → P c = true) :
    ∀ (f : Nat) (r : RE), lastOnly clsP r = true →
    ∀ (pw : Bool) (s : List Char) (x : Bool × List Char),
    x ∈ mrun f r pw s → x.2 ≠ s →
    ∃ c, x.1 = isWordChar c ∧ P c = true := by
  intro f
  induction f with
  | zero => intro r _ pw s x hx; simp [mrun] at hx
  | succ f ih =>
    intro r hr pw s x hx hne
    cases r with
    | eps =>
      simp only [mrun, List.mem_singleton] at hx
      exact absurd (by rw [hx]) hne
    | wb =>
      simp only [mrun] at hx
      by_cases hw : wbHolds pw s = true
      · rw [if_pos hw] at hx
        simp only [List.mem_singleton] at hx
        exact absurd (by rw [hx]) hne
      · rw [if_neg hw] at hx; simp at hx
    | cls k =>
      cases s with
      | nil => simp [mrun] at hx
      | cons c rest =>
        simp only [mrun] at hx
        by_cases hm : k.matches c = true
        · rw [if_pos hm] at hx
          simp only [List.mem_singleton] at hx
          exact ⟨c, by rw [hx], hcls k c (by simpa [lastOnly] using hr) hm⟩
        · rw [if_neg hm] at hx; simp at hx
    | seq a b =>
      simp only [lastOnly, Bool.and_eq_true, Bool.or_eq_true,
        Bool.not_eq_true'] at hr
      simp only [mrun, List.mem_flatMap] at hx
      obtain ⟨y, hy, hxb⟩ := hx
      by_cases hxy : x.2 = y.2
      · have hskip : canSkip b = true := mrun_skip f b y.1 y.2 x hxb hxy
        have hfa : lastOnly clsP a = true := by
          rcases hr.2 with h | h
          · rw [hskip] at h; cases h
          · exact h
        obtain ⟨u2, hw, hctx, -⟩ := mrun_decomp f b y.1 y.2 x hxb
        have hu2 : u2 = [] := by
          have h1 := congrArg List.length hw
          have h2 := congrArg List.length hxy
          simp only [List.length_append] at h1
          exact List.length_eq_zero.mp (by omega)
        have hx1 : x.1 = y.1 := by
          rw [hctx, hu2]; rfl
        have hyne : y.2 ≠ s := by
          intro heq; exact hne (hxy ▸ heq)
        obtain ⟨c, hc1, hc2⟩ := ih a hfa pw s y hy hyne
        exact ⟨c, by rw [hx1, hc1], hc2⟩
      · exact ih b hr.1 y.1 y.2 x hxb hxy
    | alt a b =>
      simp only [lastOnly, Bool.and_eq_true] at hr
      simp only [mrun, List.mem_append] at hx
      rcases hx with hx | hx
      · exact ih a hr.1 pw s x hx hne
      · exact ih b hr.2 pw s x hx hne
    | opt a =>
      simp only [lastOnly] at hr
      simp only [mrun, List.mem_append, List.mem_singleton] at hx
      rcases hx with hx | hx
      · exact ih a hr pw s x hx hne
      · exact absurd (by rw [hx]) hne
    | star a =>
      simp only [lastOnly] at hr
      simp only [mrun, List.mem_append, List.mem_singleton, List.mem_flatMap,
        List.mem_filter] at hx
      rcases hx with ⟨y, ⟨hy, hylen⟩, hxs⟩ | hx
      · have hlen : y.2.length < s.length := by simpa using hylen
        by_cases hxy : x.2 = y.2
        · obtain ⟨u2, hw, hctx, -⟩ := mrun_decomp f (.star a) y.1 y.2 x hxs
          have hu2 : u2 = [] := by
            have h1 := congrArg List.length hw
            have h2 := congrArg List.length hxy
            simp only [List.length_append] at h1
            exact List.length_eq_zero.mp (by omega)
          have hx1 : x.1 = y.1 := by
            rw [hctx, hu2]; rfl
          have hyne : y.2 ≠ s := by
            intro heq; rw [heq] at hlen; omega
          obtain ⟨c, hc1, hc2⟩ := ih a hr pw s y hy hyne
          exact ⟨c, by rw [hx1, hc1], hc2⟩
        · exact ih (.star a) (by simpa [lastOnly] using hr) y.1 y.2 x hxs hxy
      · exact absurd (by rw [hx]) hne

/-- `ctxAfter` steps through the head character. -/
theorem ctxAfter_cons (pw : Bool) (c : Char) (u : List Char) :
    ctxAfter pw (c :: u) = ctxAfter (isWordChar c) u := by
  cases u with
  | nil => simp [ctxAfter]
  | cons d u' =>
    unfold ctxAfter
    rw [List.getLast?_cons_cons]
    cases h : (d :: u').getLast? with
    | none => simp at h
    | some e => rfl

/-- A nonempty prefix determines `ctxAfter` regardless of the incoming
context. -/
theorem ctxAfter_ne_nil (pw pw' : Bool) (c : Char) (u : List Char) :
    ctxAfter pw (c :: u) = ctxAfter pw' (c :: u) := by
  rw [ctxAfter_cons, ctxAfter_cons]

/-- Scan context after an initial segment, by indexed lookup. -/
theorem ctxAfter_take (s : List Char) : ∀ (n : Nat) (pw : Bool), n < s.length →
    ctxAfter pw (s.take (n + 1)) = isWordChar (s.getD n ' ') := by
  induction s with
  | nil => intro n pw h; simp at h
  | cons c rest ih =>
    intro n pw h
    cases n with
    | zero => simp [ctxAfter]
    | succ n =>
      rw [List.take_succ_cons, ctxAfter_cons]
      simp only [List.length_cons, Nat.add_lt_add_iff_right] at h
      rw [ih n (isWordChar c) h]
      rfl

/-- No match at the `needed` budget means no match at any budget. -/
theorem mrun_empty_of_none {r : RE} {pw : Bool} {s : List Char}
    (h : matchLenAt r pw s = none) : ∀ f, mrun f r pw s = [] := by
  have h0 : mrun (RE.needed r s.length) r pw s = [] := by
    unfold matchLenAt at h
    cases hm : mrun (RE.needed r s.length) r pw s with
    | nil => rfl
    | cons x xs =>
      rw [hm] at h
      obtain ⟨a, b⟩ := x
      simp [List.head?] at h
  intro f
  cases hf : mrun f r pw s with
  | nil => rfl
  | cons x xs =>
    have hx : x ∈ mrun f r pw s := by rw [hf]; exact List.mem_cons_self _ _
    have hg : x ∈ mrun (max f (RE.needed r s.length)) r pw s :=
      mrun_mono_mem f _ (le_max_left _ _) r pw s x hx
    have hstable := mrun_stable s.length r s pw
      (max f (RE.needed r s.length)) (RE.needed r s.length)
      le_rfl (le_max_right _ _) le_rfl
    rw [hstable, h0] at hg
    simp at hg

/-- A reported match length is realised by a member of the result list. -/
theorem matchLenAt_some_mem {r : RE} {pw : Bool} {s : List Char} {k : Nat}
    (h : matchLenAt r pw s = some k) :
    ∃ x, x ∈ mrun (RE.needed r s.length) r pw s ∧ s.length = k + x.2.length := by
  unfold matchLenAt at h
  cases hm : mrun (RE.needed r s.length) r pw s with
  | nil => rw [hm] at h; simp [List.head?] at h
  | cons x xs =>
    rw [hm] at h
    obtain ⟨a, b⟩ := x
    simp only [List.head?, Option.some.injEq] at h
    have hmem : ((a, b) : Bool × List Char) ∈ (a, b) :: xs :=
      List.mem_cons_self _ _
    have hmem' : ((a, b) : Bool × List Char) ∈ mrun (RE.needed r s.length) r pw s := by
      rw [hm]; exact hmem
    have hle : b.length ≤ s.length := mrun_suffix_le hmem'
    refine ⟨(a, b), hmem, ?_⟩
    show s.length = k + b.length
    omega

/-- A pattern that cannot match empty text always consumes something. -/
theorem nonNullable_consume {r : RE} (h : nonNullable r = true)
    {f : Nat} {pw : Bool} {s : List Char} {x : Bool × List Char}
    (hx : x ∈ mrun f r pw s) : x.2 ≠ s := by
  intro he
  have hs := mrun_skip f r pw s x hx he
  rw [nonNullable, hs] at h
  simp at h

/-- A pattern that cannot match empty text never reports length zero. -/
theorem matchLenAt_ne_zero {r : RE} {pw : Bool} {s : List Char}
    (h : nonNullable r = true) : matchLenAt r pw s ≠ some 0 := by
  intro h0
  obtain ⟨x, hx, hlen⟩ := matchLenAt_some_mem h0
  have hne := nonNullable_consume h hx
  obtain ⟨u, hu, -, -⟩ := mrun_decomp _ _ _ _ _ hx
  have hul := congrArg List.length hu
  simp only [List.length_append] at hul
  have : u = [] := List.length_eq_zero.mp (by omega)
  rw [this] at hu
  exact hne hu.symm

/-- Unpacking the suffix check of `h2ok`. -/
theorem h2ok_elim {r : RE} {repl : List Char} (h : h2ok r repl = true)
    {t v2 : List Char} (hv : t ++ v2 = repl) (ctx : Bool) :
    matchLenAt r ctx v2 = none := by
  have hj : v2 = repl.drop t.length := by rw [← hv, List.drop_left]
  have hlen := congrArg List.length hv
  simp only [List.length_append] at hlen
  have hjr : t.length ∈ List.range (repl.length + 1) := by
    rw [List.mem_range]; omega
  unfold h2ok at h
  rw [List.all_eq_true] at h
  have hh := h t.length hjr
  simp only [Bool.and_eq_true, decide_eq_true_eq] at hh
  cases ctx
  · rw [hj]; exact hh.1
  · rw [hj]; exact hh.2

theorem reSub_nil (r : RE) (repl : List Char) (pw : Bool) :
    reSub r repl pw [] = [] := by
  rw [reSub.eq_def]

/-- `reSub` on a match at the current position. -/
theorem reSub_match {r : RE} {repl : List Char} {pw : Bool} {c : Char}
    {rest : List Char} {n : Nat}
    (h : matchLenAt r pw (c :: rest) = some (n + 1)) :
    reSub r repl pw (c :: rest) =
      repl ++ reSub r repl (isWordChar ((c :: rest).getD n ' '))
        ((c :: rest).drop (n + 1)) := by
  conv_lhs => rw [reSub.eq_def]
  rw [h]

/-- `reSub` on a position with no (nonempty) match. -/
theorem reSub_copy {r : RE} {repl : List Char} {pw : Bool} {c : Char}
    {rest : List Char}
    (h : ∀ n, matchLenAt r pw (c :: rest) ≠ some (n + 1)) :
    reSub r repl pw (c :: rest) = c :: reSub r repl (isWordChar c) rest := by
  conv_lhs => rw [reSub.eq_def]
  cases hm : matchLenAt r pw (c :: rest) with
  | none => rfl
  | some k =>
    cases k with
    | zero => rfl
    | succ n => exact absurd hm (h n)

theorem searchFrom_cons (r : RE) (ctx : Bool) (c : Char) (t : List Char) :
    searchFrom r ctx (c :: t) =
      ((matchLenAt r ctx (c :: t)).isSome || searchFrom r (isWordChar c) t) := rfl

/-- A failed search rules out a match at every split position. -/
theorem searchFrom_false_elim {r : RE} :
    ∀ (u : List Char) (c0 : Bool) (t w' : List Char),
    searchFrom r c0 t = false → t = u ++ w' →
    matchLenAt r (ctxAfter c0 u) w' = none := by
  intro u
  induction u with
  | nil =>
    intro c0 t w' hs ht
    have hw : searchFrom r c0 w' = false := by
      rw [List.nil_append] at ht
      rw [← ht]
      exact hs
    have hctx : ctxAfter c0 [] = c0 := rfl
    rw [hctx]
    cases w' with
    | nil =>
      simp only [searchFrom] at hw
      cases hm : matchLenAt r c0 [] with
      | none => rfl
      | some k => rw [hm] at hw; simp at hw
    | cons c t' =>
      rw [searchFrom_cons] at hw
      simp only [Bool.or_eq_false_iff] at hw
      cases hm : matchLenAt r c0 (c :: t') with
      | none => rfl
      | some k =>
        obtain ⟨hw1, -⟩ := hw
        rw [hm] at hw1
        simp at hw1
  | cons d u' ih =>
    intro c0 t w' hs ht
    subst ht
    rw [List.cons_append, searchFrom_cons] at hs
    simp only [Bool.or_eq_false_iff] at hs
    rw [ctxAfter_cons]
    exact ih (isWordChar d) (u' ++ w') w' hs.2 rfl

/-- Scanning an appended text is search-free when every position inside
the prefix fails and the tail scan fails. -/
theorem searchFrom_append_false {r : RE} :
    ∀ (v : List Char) (ctx : Bool) (w : List Char),
    (∀ t v2, v2 ≠ [] → t ++ v2 = v →
      matchLenAt r (ctxAfter ctx t) (v2 ++ w) = none) →
    searchFrom r (ctxAfter ctx v) w = false →
    searchFrom r ctx (v ++ w) = false := by
  intro v
  induction v with
  | nil => intro ctx w _ h2; exact h2
  | cons d v' ih =>
    intro ctx w h1 h2
    rw [List.cons_append, searchFrom_cons]
    simp only [Bool.or_eq_false_iff]
    constructor
    · have := h1 [] (d :: v') (by simp) rfl
      rw [show ctxAfter ctx [] = ctx from rfl] at this
      rw [List.cons_append] at this
      rw [this]
      rfl
    · apply ih (isWordChar d) w
      · intro t v2 hne htv
        have := h1 (d :: t) v2 hne (by rw [← htv]; rfl)
        rwa [ctxAfter_cons] at this
      · rwa [ctxAfter_cons] at h2

/-- A bracket-free prefix of a substitution's output is an untouched
prefix of the original text, and the rest of the output is the
substitution of the rest of the text. -/
theorem reSub_split {q : RE} {repl : List Char} (hrepl : repl.head? = some '[') :
    ∀ (N : Nat) (s : List Char), s.length ≤ N → ∀ (pw : Bool) (u w : List Char),
    reSub q repl pw s = u ++ w → '[' ∉ u →
    ∃ w', s = u ++ w' ∧ w = reSub q repl (ctxAfter pw u) w' := by
  intro N
  induction N with
  | zero =>
    intro s hs pw u w hw hu
    have hnil : s = [] := List.length_eq_zero.mp (by omega)
    subst hnil
    rw [reSub_nil] at hw
    obtain ⟨rfl, rfl⟩ := List.append_eq_nil.mp hw.symm
    exact ⟨[], rfl, (reSub_nil _ _ _).symm⟩
  | succ N ihN =>
    intro s hs pw u w hw hu
    cases u with
    | nil =>
      refine ⟨s, rfl, ?_⟩
      rw [List.nil_append] at hw
      rw [← hw]
      rfl
    | cons d u1 =>
      cases s with
      | nil =>
        rw [reSub_nil] at hw
        exact absurd hw.symm (by simp)
      | cons c rest =>
        cases hm : matchLenAt q pw (c :: rest) with
        | none =>
          rw [reSub_copy (fun n h => by rw [hm] at h; cases h)] at hw
          rw [List.cons_append] at hw
          obtain ⟨rfl, hw1⟩ : c = d ∧ reSub q repl (isWordChar c) rest = u1 ++ w :=
            ⟨by injection hw, by injection hw⟩
          have hu1 : '[' ∉ u1 := fun h => hu (List.mem_cons_of_mem _ h)
          obtain ⟨w', hrest, hww⟩ := ihN rest (by
            simp only [List.length_cons] at hs; omega) (isWordChar c) u1 w hw1 hu1
          refine ⟨w', by rw [hrest, List.cons_append], ?_⟩
          rw [ctxAfter_cons]
          exact hww
        | some k =>
          cases k with
          | zero =>
            rw [reSub_copy (fun n h => by rw [hm] at h; simp at h)] at hw
            rw [List.cons_append] at hw
            obtain ⟨rfl, hw1⟩ : c = d ∧ reSub q repl (isWordChar c) rest = u1 ++ w :=
              ⟨by injection hw, by injection hw⟩
            have hu1 : '[' ∉ u1 := fun h => hu (List.mem_cons_of_mem _ h)
            obtain ⟨w', hrest, hww⟩ := ihN rest (by
              simp only [List.length_cons] at hs; omega) (isWordChar c) u1 w hw1 hu1
            refine ⟨w', by rw [hrest, List.cons_append], ?_⟩
            rw [ctxAfter_cons]
            exact hww
          | succ n =>
            rw [reSub_match hm] at hw
            cases repl with
            | nil => simp at hrepl
            | cons e repl1 =>
              simp only [List.head?_cons, Option.some.injEq] at hrepl
              subst hrepl
              rw [List.cons_append, List.cons_append] at hw
              have hd : '[' = d := by injection hw
              exact absurd (hd ▸ List.mem_cons_self d u1) (fun h => hu h)

/-- At a bracket-free split of a substitution's output, the remaining
output either agrees with the remaining original text on the head
signature, or a replaced match starts exactly there. -/
theorem reSub_head_cases {q : RE} {repl : List Char}
    (hrepl : repl.head? = some '[') {s : List Char} {pw : Bool}
    {u w : List Char} (hw : reSub q repl pw s = u ++ w) (hu : '[' ∉ u) :
    ∃ w', s = u ++ w' ∧
      (headSig w = headSig w' ∨
        (headSig w = some false ∧ w' ≠ [] ∧
          ∃ m, matchLenAt q (ctxAfter pw u) w' = some (m + 1))) := by
  obtain ⟨w', hs, hw'⟩ := reSub_split hrepl s.length s le_rfl pw u w hw hu
  refine ⟨w', hs, ?_⟩
  cases w' with
  | nil =>
    left
    rw [hw', reSub_nil]
  | cons c' t' =>
    cases hm : matchLenAt q (ctxAfter pw u) (c' :: t') with
    | none =>
      left
      rw [hw', reSub_copy (fun n h => by rw [hm] at h; cases h)]
      rfl
    | some k =>
      cases k with
      | zero =>
        left
        rw [hw', reSub_copy (fun n h => by rw [hm] at h; simp at h)]
        rfl
      | succ m =>
        right
        refine ⟨?_, by simp, m, rfl⟩
        rw [hw', reSub_match hm]
        cases repl with
        | nil => simp at hrepl
        | cons e repl1 =>
          simp only [List.head?_cons, Option.some.injEq] at hrepl
          subst hrepl
          rw [List.cons_append]
          show some (isWordChar '[') = some false
          have h1 : isWordChar '[' = false := by decide
          rw [h1]

theorem lastChar_mem : ∀ (l : List Char) (a : Char), l.getLast? = some a → a ∈ l := by
  intro l
  induction l with
  | nil => intro a h; simp at h
  | cons c l' ih =>
    intro a h
    cases l' with
    | nil =>
      simp only [List.getLast?_singleton, Option.some.injEq] at h
      subst h
      exact List.mem_cons_self _ _
    | cons d l'' =>
      rw [List.getLast?_cons_cons] at h
      exact List.mem_cons_of_mem _ (ih a h)

/-- The pattern matches nowhere strictly inside the replacement marker,
whatever text follows: its alphabet avoids `]`, so any such match would
replay inside the marker alone, which `h2ok` rules out. -/
theorem repl_in_suffix_none {p : RE} {repl : List Char}
    (halpha : alpha p ']' = false) (hlast : repl.getLast? = some ']')
    (hh2 : h2ok p repl = true) :
    ∀ (t v2 : List Char), v2 ≠ [] → t ++ v2 = repl →
    ∀ (ctx : Bool) (tail : List Char), matchLenAt p ctx (v2 ++ tail) = none := by
  intro t v2 hne htv ctx tail
  cases hm : matchLenAt p ctx (v2 ++ tail) with
  | none => rfl
  | some k =>
    exfalso
    obtain ⟨x, hx, hlen⟩ := matchLenAt_some_mem hm
    obtain ⟨x1, x2⟩ := x
    obtain ⟨u0, hu0, hctx0, hall⟩ := mrun_decomp _ _ _ _ _ hx
    simp only at hu0 hctx0
    have hrv : ']' ∈ v2 := by
      apply lastChar_mem
      rw [← htv] at hlast
      rwa [List.getLast?_append_of_ne_nil _ hne] at hlast
    have hrnotu : ']' ∉ u0 := by
      intro h
      have := hall ']' h
      rw [halpha] at this
      cases this
    have hlt : u0.length < v2.length := by
      by_contra hge
      push_neg at hge
      have htake : v2 = u0.take v2.length := by
        have h1 := congrArg (List.take v2.length) hu0
        rw [List.take_left] at h1
        rwa [List.take_append_of_le_length hge] at h1
      exact hrnotu (List.take_subset _ _ (htake ▸ hrv))
    have hu0take : u0 = v2.take u0.length := by
      have h1 := congrArg (List.take u0.length) hu0
      rw [List.take_append_of_le_length (le_of_lt hlt), List.take_left] at h1
      exact h1.symm
    have hv2 : v2 = u0 ++ v2.drop u0.length := by
      conv_lhs => rw [← List.take_append_drop u0.length v2]
      rw [← hu0take]
    have hzne : v2.drop u0.length ≠ [] := by
      intro h
      have := congrArg List.length h
      simp at this
      omega
    have hx2 : x2 = v2.drop u0.length ++ tail := by
      have h1 : u0 ++ x2 = u0 ++ (v2.drop u0.length ++ tail) := by
        rw [← hu0]
        conv_lhs => rw [hv2]
        rw [List.append_assoc]
      exact List.append_cancel_left h1
    cases hz : v2.drop u0.length with
    | nil => exact hzne hz
    | cons zc zt =>
      have hsig : headSig x2 = headSig (v2.drop u0.length) := by
        rw [hx2, hz]
        rfl
      have hx' : (x1, x2) ∈ mrun (RE.needed p (v2 ++ tail).length) p ctx
          (u0 ++ x2) := by rw [← hu0]; exact hx
      have hrep := mrun_replay (RE.needed p (v2 ++ tail).length) p ctx u0 x2
        (v2.drop u0.length) x1 hsig hx'
      rw [← hv2] at hrep
      have hnone := h2ok_elim hh2 htv ctx
      have hempty := mrun_empty_of_none hnone (RE.needed p (v2 ++ tail).length)
      rw [hempty] at hrep
      cases hrep

/-- A boundary-free pattern matching at the head of a substitution
output also matches at the head of the original text (with the
substitution's own scan context). -/
theorem transfer_pem {p q : RE} {repl : List Char}
    (hnw : hasWb p = false) (halpha : alpha p '[' = false)
    (hrepl : repl.head? = some '[') {F : Nat} {CTX pw : Bool}
    {s : List Char} {x : Bool × List Char}
    (hx : x ∈ mrun F p CTX (reSub q repl pw s)) :
    ∃ x2 w', (x2, w') ∈ mrun F p pw s := by
  obtain ⟨x1, x2⟩ := x
  obtain ⟨u0, hu0, hctx0, hall⟩ := mrun_decomp _ _ _ _ _ hx
  simp only at hu0 hctx0
  have hu : '[' ∉ u0 := by
    intro h
    have := hall '[' h
    rw [halpha] at this
    cases this
  obtain ⟨w', hs, -⟩ := reSub_head_cases hrepl hu0 hu
  have hx' : (x1, x2) ∈ mrun F p CTX (u0 ++ x2) := by rw [← hu0]; exact hx
  have hrep := mrun_replay_noWb F p hnw CTX u0 x2 w' x1 hx'
  rw [← hs] at hrep
  obtain ⟨x2', hx2'⟩ := mrun_noWb_ctx F p hnw CTX pw s x1 w' hrep
  exact ⟨x2', w', hx2'⟩

/-- A `\b`-guarded word-edged pattern matching at the head of a
substitution output also matches at the head of the original text, in
the same scan context. -/
theorem transfer_A {p q : RE} {repl : List Char}
    (hpnn : nonNullable p = true) (hplast : lastOnly clsWordOnly p = true)
    (hpalpha : alpha p '[' = false)
    (hq : classA q = true ∨ pemLike q = true)
    (hrepl : repl.head? = some '[') {F : Nat} {CTX pw : Bool}
    {s : List Char} {x : Bool × List Char}
    (hx : x ∈ mrun F p CTX (reSub q repl pw s)) :
    ∃ x', x' ∈ mrun F p CTX s := by
  obtain ⟨x1, x2⟩ := x
  obtain ⟨u0, hu0, hctx0, hall⟩ := mrun_decomp _ _ _ _ _ hx
  simp only at hu0 hctx0
  have hu : '[' ∉ u0 := by
    intro h
    have := hall '[' h
    rw [hpalpha] at this
    cases this
  obtain ⟨w', hs, hcase⟩ := reSub_head_cases hrepl hu0 hu
  have hx' : (x1, x2) ∈ mrun F p CTX (u0 ++ x2) := by rw [← hu0]; exact hx
  have hreplay : headSig x2 = headSig w' → ∃ x', x' ∈ mrun F p CTX s := by
    intro hsig
    have hrep := mrun_replay F p CTX u0 x2 w' x1 hsig hx'
    rw [← hs] at hrep
    exact ⟨(x1, w'), hrep⟩
  rcases hcase with hsig | ⟨hsigf, hwne, m, hqm⟩
  · exact hreplay hsig
  · have hne : ((x1, x2) : Bool × List Char).2 ≠ reSub q repl pw s :=
      nonNullable_consume hpnn hx
    have hu0ne : u0 ≠ [] := by
      intro h
      rw [h, List.nil_append] at hu0
      exact hne hu0.symm
    obtain ⟨cl, hx1c, hPcl⟩ := mrun_lastOnly clsWordOnly isWordChar
      clsWordOnly_sound F p hplast CTX (reSub q repl pw s) (x1, x2) hx hne
    have hx1t : x1 = true := by
      simp only at hx1c
      rw [hx1c, hPcl]
    have hctxq : ctxAfter pw u0 = true := by
      rw [← hx1t, hctx0]
      cases u0 with
      | nil => exact absurd rfl hu0ne
      | cons d u1 => exact ctxAfter_ne_nil pw CTX d u1
    obtain ⟨xq, hxq, hqlen⟩ := matchLenAt_some_mem hqm
    rcases hq with hqA | hqP
    · exfalso
      simp only [classA, Bool.and_eq_true, Bool.not_eq_true'] at hqA
      obtain ⟨⟨⟨⟨⟨⟨hqnn, hqsw⟩, hqew⟩, hqfw⟩, hqlw⟩, hqa1⟩, hqa2⟩ := hqA
      have hqne : xq.2 ≠ w' := nonNullable_consume hqnn hxq
      have hwb := mrun_startsWb _ q hqsw (ctxAfter pw u0) w' xq hxq
      cases w' with
      | nil => exact hwne rfl
      | cons c' t' =>
        have hfw := mrun_firstOnly clsWordOnly isWordChar clsWordOnly_sound
          _ q hqfw (ctxAfter pw u0) c' t' xq hxq hqne
        simp only [wbHolds] at hwb
        rw [hctxq, hfw] at hwb
        simp at hwb
    · simp only [pemLike, Bool.and_eq_true, Bool.not_eq_true'] at hqP
      obtain ⟨⟨⟨⟨⟨hqnn, hqnw⟩, hqfn⟩, hqln⟩, hqa1⟩, hqa2⟩ := hqP
      have hqne : xq.2 ≠ w' := nonNullable_consume hqnn hxq
      cases w' with
      | nil => exact absurd rfl hwne
      | cons c' t' =>
        have hfn := mrun_firstOnly clsNonWordOnly (fun c => !isWordChar c)
          (fun k c hk hm => by
            show (!isWordChar c) = true
            rw [clsNonWordOnly_sound k c hk hm]
            rfl)
          _ q hqfn (ctxAfter pw u0) c' t' xq hxq hqne
        have hfn' : isWordChar c' = false := by simpa using hfn
        apply hreplay
        rw [hsigf]
        show some false = some (isWordChar c')
        rw [hfn']

theorem matchLenAt_nil_none {p : RE} (hnn : nonNullable p = true) (ctx : Bool) :
    matchLenAt p ctx [] = none := by
  cases hm : matchLenAt p ctx [] with
  | none => rfl
  | some k =>
    exfalso
    obtain ⟨x, hx, hlen⟩ := matchLenAt_some_mem hm
    have hne := nonNullable_consume hnn hx
    have hle := mrun_suffix_le hx
    rw [List.length_nil, Nat.le_zero] at hle
    exact hne (List.length_eq_zero.mp hle)

/-- Substituting a `\b`-guarded word-edged pattern with the bracketed
marker leaves text in which the pattern does not match anywhere
(provided the scan context is consistent with the substitution's, or the
text starts with a non-word character). -/
theorem selfClear_A {p : RE} {repl : List Char}
    (hA : classA p = true) (hhead : repl.head? = some '[')
    (hlast : repl.getLast? = some ']') (hh2 : h2ok p repl = true) :
    ∀ (N : Nat) (s : List Char), s.length ≤ N → ∀ (pw ctx : Bool),
    (ctx = pw ∨ headSig s ≠ some true) →
    searchFrom p ctx (reSub p repl pw s) = false := by
  have hA' := hA
  simp only [classA, Bool.and_eq_true, Bool.not_eq_true'] at hA'
  obtain ⟨⟨⟨⟨⟨⟨hnn, hsw⟩, hew⟩, hfw⟩, hlw⟩, ha1⟩, ha2⟩ := hA'
  intro N
  induction N with
  | zero =>
    intro s hs pw ctx _
    have hsnil : s = [] := List.length_eq_zero.mp (by omega)
    subst hsnil
    rw [reSub_nil]
    show (matchLenAt p ctx []).isSome = false
    rw [matchLenAt_nil_none hnn]
    rfl
  | succ N ihN =>
    intro s hs pw ctx hinv
    cases s with
    | nil =>
      rw [reSub_nil]
      show (matchLenAt p ctx []).isSome = false
      rw [matchLenAt_nil_none hnn]
      rfl
    | cons c rest =>
      cases hm : matchLenAt p pw (c :: rest) with
      | none =>
        have hout : reSub p repl pw (c :: rest) =
            c :: reSub p repl (isWordChar c) rest :=
          reSub_copy (fun n h => by rw [hm] at h; cases h)
        rw [hout, searchFrom_cons]
        simp only [Bool.or_eq_false_iff]
        constructor
        · cases hm2 : matchLenAt p ctx (c :: reSub p repl (isWordChar c) rest) with
          | none => rfl
          | some k =>
            exfalso
            obtain ⟨x, hx, -⟩ := matchLenAt_some_mem hm2
            rw [← hout] at hx
            obtain ⟨x', hx'⟩ := transfer_A hnn hlw ha1 (Or.inl hA) hhead hx
            rcases hinv with hctxpw | hhs
            · subst hctxpw
              rw [mrun_empty_of_none hm] at hx'
              cases hx'
            · have hxne : x'.2 ≠ c :: rest := nonNullable_consume hnn hx'
              have hfc := mrun_firstOnly clsWordOnly isWordChar
                clsWordOnly_sound _ p hfw ctx c rest x' hx' hxne
              exact hhs (by rw [headSig, hfc])
        · exact ihN rest (by simp only [List.length_cons] at hs; omega)
            (isWordChar c) (isWordChar c) (Or.inl rfl)
      | some k =>
        cases k with
        | zero => exact absurd hm (matchLenAt_ne_zero hnn)
        | succ n =>
          rw [reSub_match hm]
          obtain ⟨xm, hxm, hlenm⟩ := matchLenAt_some_mem hm
          obtain ⟨um, hum, hctxm, -⟩ := mrun_decomp _ _ _ _ _ hxm
          have humlen : um.length = n + 1 := by
            have hl := congrArg List.length hum
            simp only [List.length_append, List.length_cons] at hl hlenm
            omega
          have hxm2 : xm.2 = (c :: rest).drop (n + 1) := by
            rw [hum, ← humlen, List.drop_left]
          have hxmne : xm.2 ≠ c :: rest := by
            intro h
            have hl := congrArg List.length hum
            rw [h] at hl
            simp only [List.length_append, List.length_cons] at hl
            omega
          obtain ⟨cm, hxm1, hPcm⟩ := mrun_lastOnly clsWordOnly isWordChar
            clsWordOnly_sound _ p hlw pw (c :: rest) xm hxm hxmne
          have hxm1t : xm.1 = true := by rw [hxm1, hPcm]
          have hwb := mrun_endsWb _ p hew pw (c :: rest) xm hxm
          rw [hxm1t] at hwb
          have hdropsig : headSig ((c :: rest).drop (n + 1)) ≠ some true := by
            rw [← hxm2]
            intro hcontra
            cases hx2 : xm.2 with
            | nil => rw [hx2] at hcontra; simp [headSig] at hcontra
            | cons d t2 =>
              rw [hx2] at hcontra hwb
              simp only [headSig, Option.some.injEq] at hcontra
              simp only [wbHolds] at hwb
              rw [hcontra] at hwb
              simp at hwb
          apply searchFrom_append_false
          · intro t v2 hne htv
            exact repl_in_suffix_none ha2 hlast hh2 t v2 hne htv _ _
          · have hctxrepl : ctxAfter ctx repl = false := by
              unfold ctxAfter
              rw [hlast]
              show isWordChar ']' = false
              decide
            rw [hctxrepl]
            exact ihN ((c :: rest).drop (n + 1)) (by
                simp only [List.length_drop, List.length_cons] at *
                omega)
              (isWordChar ((c :: rest).getD n ' ')) false (Or.inr hdropsig)

/-- Substituting the boundary-free non-word-edged pattern with the
bracketed marker leaves text in which the pattern does not match
anywhere. -/
theorem selfClear_pem {p : RE} {repl : List Char}
    (hP : pemLike p = true) (hhead : repl.head? = some '[')
    (hlast : repl.getLast? = some ']') (hh2 : h2ok p repl = true) :
    ∀ (N : Nat) (s : List Char), s.length ≤ N → ∀ (pw ctx : Bool),
    searchFrom p ctx (reSub p repl pw s) = false := by
  have hP' := hP
  simp only [pemLike, Bool.and_eq_true, Bool.not_eq_true'] at hP'
  obtain ⟨⟨⟨⟨⟨hnn, hnw⟩, hfn⟩, hln⟩, ha1⟩, ha2⟩ := hP'
  intro N
  induction N with
  | zero =>
    intro s hs pw ctx
    have hsnil : s = [] := List.length_eq_zero.mp (by omega)
    subst hsnil
    rw [reSub_nil]
    show (matchLenAt p ctx []).isSome = false
    rw [matchLenAt_nil_none hnn]
    rfl
  | succ N ihN =>
    intro s hs pw ctx
    cases s with
    | nil =>
      rw [reSub_nil]
      show (matchLenAt p ctx []).isSome = false
      rw [matchLenAt_nil_none hnn]
      rfl
    | cons c rest =>
      cases hm : matchLenAt p pw (c :: rest) with
      | none =>
        have hout : reSub p repl pw (c :: rest) =
            c :: reSub p repl (isWordChar c) rest :=
          reSub_copy (fun n h => by rw [hm] at h; cases h)
        rw [hout, searchFrom_cons]
        simp only [Bool.or_eq_false_iff]
        constructor
        · cases hm2 : matchLenAt p ctx (c :: reSub p repl (isWordChar c) rest) with
          | none => rfl
          | some k =>
            exfalso
            obtain ⟨x, hx, -⟩ := matchLenAt_some_mem hm2
            rw [← hout] at hx
            obtain ⟨x2, w', hx'⟩ := transfer_pem hnw ha1 hhead hx
            rw [mrun_empty_of_none hm] at hx'
            cases hx'
        · exact ihN rest (by simp only [List.length_cons] at hs; omega)
            (isWordChar c) (isWordChar c)
      | some k =>
        cases k with
        | zero => exact absurd hm (matchLenAt_ne_zero hnn)
        | succ n =>
          rw [reSub_match hm]
          apply searchFrom_append_false
          · intro t v2 hne htv
            exact repl_in_suffix_none ha2 hlast hh2 t v2 hne htv _ _
          · have hctxrepl : ctxAfter ctx repl = false := by
              unfold ctxAfter
              rw [hlast]
              show isWordChar ']' = false
              decide
            rw [hctxrepl]
            exact ihN ((c :: rest).drop (n + 1)) (by
                simp only [List.length_drop, List.length_cons] at *
                omega)
              (isWordChar ((c :: rest).getD n ' ')) false

/-- Substituting another PII pattern introduces no match of a
`\b`-guarded word-edged pattern that was absent from the text. -/
theorem preserve_A {p q : RE} {replq : List Char}
    (hA : classA p = true) (hq : classA q = true ∨ pemLike q = true)
    (hhead : replq.head? = some '[') (hlast : replq.getLast? = some ']')
    (hh2 : h2ok p replq = true) :
    ∀ (N : Nat) (s : List Char), s.length ≤ N → ∀ (pw ctx : Bool),
    (ctx = pw ∨ headSig s ≠ some true) →
    (∀ u w', s = u ++ w' → matchLenAt p (ctxAfter pw u) w' = none) →
    searchFrom p ctx (reSub q replq pw s) = false := by
  have hA' := hA
  simp only [classA, Bool.and_eq_true, Bool.not_eq_true'] at hA'
  obtain ⟨⟨⟨⟨⟨⟨hnn, hsw⟩, hew⟩, hfw⟩, hlw⟩, ha1⟩, ha2⟩ := hA'
  have hqnn : nonNullable q = true := by
    rcases hq with h | h
    · simp only [classA, Bool.and_eq_true, Bool.not_eq_true'] at h
      exact h.1.1.1.1.1.1
    · simp only [pemLike, Bool.and_eq_true, Bool.not_eq_true'] at h
      exact h.1.1.1.1.1
  intro N
  induction N with
  | zero =>
    intro s hs pw ctx _ _
    have hsnil : s = [] := List.length_eq_zero.mp (by omega)
    subst hsnil
    rw [reSub_nil]
    show (matchLenAt p ctx []).isSome = false
    rw [matchLenAt_nil_none hnn]
    rfl
  | succ N ihN =>
    intro s hs pw ctx hinv hloc
    cases s with
    | nil =>
      rw [reSub_nil]
      show (matchLenAt p ctx []).isSome = false
      rw [matchLenAt_nil_none hnn]
      rfl
    | cons c rest =>
      cases hm : matchLenAt q pw (c :: rest) with
      | none =>
        have hout : reSub q replq pw (c :: rest) =
            c :: reSub q replq (isWordChar c) rest :=
          reSub_copy (fun n h => by rw [hm] at h; cases h)
        rw [hout, searchFrom_cons]
        simp only [Bool.or_eq_false_iff]
        constructor
        · cases hm2 : matchLenAt p ctx (c :: reSub q replq (isWordChar c) rest) with
          | none => rfl
          | some k =>
            exfalso
            obtain ⟨x, hx, -⟩ := matchLenAt_some_mem hm2
            rw [← hout] at hx
            obtain ⟨x', hx'⟩ := transfer_A hnn hlw ha1 hq hhead hx
            rcases hinv with hctxpw | hhs
            · subst hctxpw
              have h0 := hloc [] (c :: rest) rfl
              have h0' : matchLenAt p ctx (c :: rest) = none := h0
              rw [mrun_empty_of_none h0'] at hx'
              cases hx'
            · have hxne : x'.2 ≠ c :: rest := nonNullable_consume hnn hx'
              have hfc := mrun_firstOnly clsWordOnly isWordChar
                clsWordOnly_sound _ p hfw ctx c rest x' hx' hxne
              exact hhs (by rw [headSig, hfc])
        · refine ihN rest (by simp only [List.length_cons] at hs; omega)
            (isWordChar c) (isWordChar c) (Or.inl rfl) ?_
          intro u w' h
          have h2 := hloc (c :: u) w' (by rw [List.cons_append, h])
          rwa [ctxAfter_cons] at h2
      | some k =>
        cases k with
        | zero => exact absurd hm (matchLenAt_ne_zero hqnn)
        | succ n =>
          rw [reSub_match hm]
          obtain ⟨xm, hxm, hlenm⟩ := matchLenAt_some_mem hm
          obtain ⟨um, hum, hctxm, -⟩ := mrun_decomp _ _ _ _ _ hxm
          have humlen : um.length = n + 1 := by
            have hl := congrArg List.length hum
            simp only [List.length_append, List.length_cons] at hl hlenm
            omega
          have hxm2 : xm.2 = (c :: rest).drop (n + 1) := by
            rw [hum, ← humlen, List.drop_left]
          have hxmne : xm.2 ≠ c :: rest := by
            intro h
            have hl := congrArg List.length hum
            rw [h] at hl
            simp only [List.length_append, List.length_cons] at hl
            omega
          have hnlt : n < (c :: rest).length := by
            simp only [List.length_cons] at hlenm ⊢
            omega
          have humtake : um = (c :: rest).take (n + 1) := by
            rw [← humlen]
            conv_rhs => rw [hum]
            rw [List.take_left]
          have hinv' : (false = isWordChar ((c :: rest).getD n ' ') ∨
              headSig ((c :: rest).drop (n + 1)) ≠ some true) := by
            rcases hq with hqA | hqP
            · right
              simp only [classA, Bool.and_eq_true, Bool.not_eq_true'] at hqA
              obtain ⟨⟨⟨⟨⟨⟨-, -⟩, hqew⟩, -⟩, hqlw⟩, -⟩, -⟩ := hqA
              obtain ⟨cm, hxm1, hPcm⟩ := mrun_lastOnly clsWordOnly isWordChar
                clsWordOnly_sound _ q hqlw pw (c :: rest) xm hxm hxmne
              have hxm1t : xm.1 = true := by rw [hxm1, hPcm]
              have hwb := mrun_endsWb _ q hqew pw (c :: rest) xm hxm
              rw [hxm1t] at hwb
              rw [← hxm2]
              intro hcontra
              cases hx2 : xm.2 with
              | nil => rw [hx2] at hcontra; simp [headSig] at hcontra
              | cons d t2 =>
                rw [hx2] at hcontra hwb
                simp only [headSig, Option.some.injEq] at hcontra
                simp only [wbHolds] at hwb
                rw [hcontra] at hwb
                simp at hwb
            · left
              simp only [pemLike, Bool.and_eq_true, Bool.not_eq_true'] at hqP
              obtain ⟨⟨⟨⟨⟨-, -⟩, -⟩, hqln⟩, -⟩, -⟩ := hqP
              obtain ⟨cm, hxm1, hPcm⟩ := mrun_lastOnly clsNonWordOnly
                (fun c => !isWordChar c)
                (fun k c hk hm => by
                  show (!isWordChar c) = true
                  rw [clsNonWordOnly_sound k c hk hm]
                  rfl)
                _ q hqln pw (c :: rest) xm hxm hxmne
              have hPcm' : isWordChar cm = false := by simpa using hPcm
              have hxm1f : xm.1 = false := by rw [hxm1, hPcm']
              have hctxum : ctxAfter pw um = isWordChar ((c :: rest).getD n ' ') := by
                rw [humtake]
                exact ctxAfter_take (c :: rest) n pw hnlt
              rw [← hctxum, ← hctxm]
              exact hxm1f.symm
          apply searchFrom_append_false
          · intro t v2 hne htv
            exact repl_in_suffix_none ha2 hlast hh2 t v2 hne htv _ _
          · have hctxrepl : ctxAfter ctx replq = false := by
              unfold ctxAfter
              rw [hlast]
              show isWordChar ']' = false
              decide
            rw [hctxrepl]
            refine ihN ((c :: rest).drop (n + 1)) (by
                simp only [List.length_drop, List.length_cons] at *
                omega)
              (isWordChar ((c :: rest).getD n ' ')) false hinv' ?_
            intro u w' h
            have hs2 : (c :: rest) = ((c :: rest).take (n + 1) ++ u) ++ w' := by
              conv_lhs => rw [← List.take_append_drop (n + 1) (c :: rest)]
              rw [h, List.append_assoc]
            have h2 := hloc ((c :: rest).take (n + 1) ++ u) w' hs2
            rwa [ctxAfter_append, ctxAfter_take _ n pw hnlt] at h2

/-- Substituting another PII pattern introduces no match of the
boundary-free non-word-edged pattern that was absent from the text. -/
theorem preserve_pem {p q : RE} {replq : List Char}
    (hP : pemLike p = true) (hq : classA q = true ∨ pemLike q = true)
    (hhead : replq.head? = some '[') (hlast : replq.getLast? = some ']')
    (hh2 : h2ok p replq = true) :
    ∀ (N : Nat) (s : List Char), s.length ≤ N → ∀ (pw ctx : Bool),
    (∀ u w', s = u ++ w' → matchLenAt p (ctxAfter pw u) w' = none) →
    searchFrom p ctx (reSub q replq pw s) = false := by
  have hP' := hP
  simp only [pemLike, Bool.and_eq_true, Bool.not_eq_true'] at hP'
  obtain ⟨⟨⟨⟨⟨hnn, hnw⟩, hfn⟩, hln⟩, ha1⟩, ha2⟩ := hP'
  have hqnn : nonNullable q = true := by
    rcases hq with h | h
    · simp only [classA, Bool.and_eq_true, Bool.not_eq_true'] at h
      exact h.1.1.1.1.1.1
    · simp only [pemLike, Bool.and_eq_true, Bool.not_eq_true'] at h
      exact h.1.1.1.1.1
  intro N
  induction N with
  | zero =>
    intro s hs pw ctx _
    have hsnil : s = [] := List.length_eq_zero.mp (by omega)
    subst hsnil
    rw [reSub_nil]
    show (matchLenAt p ctx []).isSome = false
    rw [matchLenAt_nil_none hnn]
    rfl
  | succ N ihN =>
    intro s hs pw ctx hloc
    cases s with
    | nil =>
      rw [reSub_nil]
      show (matchLenAt p ctx []).isSome = false
      rw [matchLenAt_nil_none hnn]
      rfl
    | cons c rest =>
      cases hm : matchLenAt q pw (c :: rest) with
      | none =>
        have hout : reSub q replq pw (c :: rest) =
            c :: reSub q replq (isWordChar c) rest :=
          reSub_copy (fun n h => by rw [hm] at h; cases h)
        rw [hout, searchFrom_cons]
        simp only [Bool.or_eq_false_iff]
        constructor
        · cases hm2 : matchLenAt p ctx (c :: reSub q replq (isWordChar c) rest) with
          | none => rfl
          | some k =>
            exfalso
            obtain ⟨x, hx, -⟩ := matchLenAt_some_mem hm2
            rw [← hout] at hx
            obtain ⟨x2, w', hx'⟩ := transfer_pem hnw ha1 hhead hx
            have h0 := hloc [] (c :: rest) rfl
            have h0' : matchLenAt p pw (c :: rest) = none := h0
            rw [mrun_empty_of_none h0'] at hx'
            cases hx'
        · refine ihN rest (by simp only [List.length_cons] at hs; omega)
            (isWordChar c) (isWordChar c) ?_
          intro u w' h
          have h2 := hloc (c :: u) w' (by rw [List.cons_append, h])
          rwa [ctxAfter_cons] at h2
      | some k =>
        cases k with
        | zero => exact absurd hm (matchLenAt_ne_zero hqnn)
        | succ n =>
          rw [reSub_match hm]
          obtain ⟨xm, hxm, hlenm⟩ := matchLenAt_some_mem hm
          have hnlt : n < (c :: rest).length := by
            simp only [List.length_cons] at hlenm ⊢
            omega
          apply searchFrom_append_false
          · intro t v2 hne htv
            exact repl_in_suffix_none ha2 hlast hh2 t v2 hne htv _ _
          · have hctxrepl : ctxAfter ctx replq = false := by
              unfold ctxAfter
              rw [hlast]
              show isWordChar ']' = false
              decide
            rw [hctxrepl]
            refine ihN ((c :: rest).drop (n + 1)) (by
                simp only [List.length_drop, List.length_cons] at *
                omega)
              (isWordChar ((c :: rest).getD n ' ')) false ?_
            intro u w' h
            have hs2 : (c :: rest) = ((c :: rest).take (n + 1) ++ u) ++ w' := by
              conv_lhs => rw [← List.take_append_drop (n + 1) (c :: rest)]
              rw [h, List.append_assoc]
            have h2 := hloc ((c :: rest).take (n + 1) ++ u) w' hs2
            rwa [ctxAfter_append, ctxAfter_take _ n pw hnlt] at h2

/-- One redaction step clears its own pattern from the text. -/
theorem stepP_clears {p : String × RE}
    (hA : classA p.2 = true ∨ pemLike p.2 = true)
    (hhead : (replStr p.1).head? = some '[')
    (hlast : (replStr p.1).getLast? = some ']')
    (hh2 : h2ok p.2 (replStr p.1) = true) (t : List Char) :
    reSearch p.2 (stepP p t) = false := by
  unfold stepP
  cases hr : reSearch p.2 t with
  | false => simp [hr]
  | true =>
    simp only [hr, if_true]
    unfold reSearch
    rcases hA with h | h
    · exact selfClear_A h hhead hlast hh2 t.length t le_rfl false false (Or.inl rfl)
    · exact selfClear_pem h hhead hlast hh2 t.length t le_rfl false false

/-- A redaction step keeps every already-absent pattern absent. -/
theorem stepP_preserves {p q : String × RE}
    (hp : classA p.2 = true ∨ pemLike p.2 = true)
    (hq : classA q.2 = true ∨ pemLike q.2 = true)
    (hhead : (replStr q.1).head? = some '[')
    (hlast : (replStr q.1).getLast? = some ']')
    (hh2 : h2ok p.2 (replStr q.1) = true) {t : List Char}
    (h : reSearch p.2 t = false) :
    reSearch p.2 (stepP q t) = false := by
  unfold stepP
  cases hr : reSearch q.2 t with
  | false => simp [hr, h]
  | true =>
    simp only [hr, if_true]
    unfold reSearch at h ⊢
    have hloc : ∀ u w', t = u ++ w' → matchLenAt p.2 (ctxAfter false u) w' = none :=
      fun u w' hw => searchFrom_false_elim u false t w' h hw
    rcases hp with hA | hP
    · exact preserve_A hA hq hhead hlast hh2 t.length t le_rfl false false
        (Or.inl rfl) hloc
    · exact preserve_pem hP hq hhead hlast hh2 t.length t le_rfl false false hloc

/-- Absence of a pattern survives a whole run of redaction steps. -/
theorem fold_preserves (p : String × RE)
    (hp : classA p.2 = true ∨ pemLike p.2 = true) :
    ∀ (ps : List (String × RE)) (t : List Char),
    (∀ q ∈ ps, (classA q.2 = true ∨ pemLike q.2 = true) ∧
        (replStr q.1).head? = some '[' ∧ (replStr q.1).getLast? = some ']' ∧
        h2ok p.2 (replStr q.1) = true) →
    reSearch p.2 t = false →
    reSearch p.2 (ps.foldl (fun t q => stepP q t) t) = false := by
  intro ps
  induction ps with
  | nil => intro t _ h; exact h
  | cons q ps' ih =>
    intro t hq h
    rw [List.foldl_cons]
    have hqc := hq q (List.mem_cons_self _ _)
    exact ih (stepP q t) (fun r hr => hq r (List.mem_cons_of_mem _ hr))
      (stepP_preserves hp hqc.1 hqc.2.1 hqc.2.2.1 hqc.2.2.2 h)

/-- After the full run of redaction steps no listed pattern matches. -/
theorem fold_clears :
    ∀ (ps : List (String × RE)),
    (∀ p ∈ ps, (classA p.2 = true ∨ pemLike p.2 = true) ∧
        (replStr p.1).head? = some '[' ∧ (replStr p.1).getLast? = some ']') →
    (∀ p ∈ ps, ∀ q ∈ ps, h2ok p.2 (replStr q.1) = true) →
    ∀ (t : List Char) (p : String × RE), p ∈ ps →
    reSearch p.2 (ps.foldl (fun t q => stepP q t) t) = false := by
  intro ps
  induction ps with
  | nil => intro _ _ t p hp; cases hp
  | cons q ps' ih =>
    intro hall hh2 t p hp
    rw [List.foldl_cons]
    rcases List.mem_cons.mp hp with rfl | hp'
    · apply fold_preserves p (hall p (List.mem_cons_self _ _)).1 ps' (stepP p t)
      · intro r hr
        exact ⟨(hall r (List.mem_cons_of_mem _ hr)).1,
          (hall r (List.mem_cons_of_mem _ hr)).2.1,
          (hall r (List.mem_cons_of_mem _ hr)).2.2,
          hh2 p (List.mem_cons_self _ _) r (List.mem_cons_of_mem _ hr)⟩
      · have hb := hall p (List.mem_cons_self _ _)
        exact stepP_clears hb.1 hb.2.1 hb.2.2
          (hh2 p (List.mem_cons_self _ _) p (List.mem_cons_self _ _)) t
    · exact ih (fun r hr => hall r (List.mem_cons_of_mem _ hr))
        (fun r hr s hs =>
          hh2 r (List.mem_cons_of_mem _ hr) s (List.mem_cons_of_mem _ hs))
        (stepP q t) p hp'

/-- The text component of `_redact_pii` is the fold of `stepP`. -/
theorem redact_fold_fst : ∀ (ps : List (String × RE)) (st : List Char × List String),
    (ps.foldl (fun (st : List Char × List String) p =>
      if reSearch p.2 st.1 then
        (reSub p.2 ("[REDACTED:" ++ String.mk (upperStr p.1) ++ "]").toList false st.1,
         st.2 ++ ["PII detected and redacted: " ++ p.1])
      else st) st).1 = ps.foldl (fun t p => stepP p t) st.1 := by
  intro ps
  induction ps with
  | nil => intro st; rfl
  | cons p ps ih =>
    intro st
    rw [List.foldl_cons, List.foldl_cons, ih]
    congr 1
    unfold stepP replStr
    cases hr : reSearch p.2 st.1 <;> simp [hr]

/-- When `_redact_pii` reports findings, the review's risk level is at
least `high` (index 2). -/
theorem review_risk_high {text : List Char} {tool : String}
    (h : (redactPii text).2 ≠ []) :
    2 ≤ riskIndex (CSO.review text tool).risk_level := by
  unfold CSO.review
  dsimp only
  rw [if_pos h]
  split
  · show 2 ≤ riskIndex "critical"
    decide
  · split
    · split
      · show 2 ≤ riskIndex (riskAtLeastHigh "critical")
        decide
      · show 2 ≤ riskIndex (riskAtLeastHigh "low")
        decide
    · show 2 ≤ riskIndex (riskAtLeastHigh "low")
      decide

/-- C7: for every input text and tool name, the redacted_text returned
by `CSO.review` contains zero matches of every PII pattern, and whenever
at least one PII pattern matched the input, the returned risk_level is
at least high. -/
theorem C7_redaction_clears_and_raises_risk (text : List Char) (tool : String) :
    (∀ p ∈ PII_PATTERNS, reSearch p.2 (CSO.review text tool).redacted_text = false) ∧
    ((∃ p ∈ PII_PATTERNS, reSearch p.2 text = true) →
      2 ≤ riskIndex (CSO.review text tool).risk_level) := by
  constructor
  · intro p hp
    have hred : (CSO.review text tool).redacted_text = (redactPii text).1 := rfl
    have hfold : (redactPii text).1 =
        PII_PATTERNS.foldl (fun t p => stepP p t) text := by
      unfold redactPii
      exact redact_fold_fst PII_PATTERNS (text, [])
    rw [hred, hfold]
    exact fold_clears PII_PATTERNS (by decide) (by decide) text p hp
  · intro hex
    obtain ⟨p, hp, hsp⟩ := hex
    have hne : (redactPii text).2 ≠ [] := by
      unfold redactPii
      exact redactPii_fold_ne_nil PII_PATTERNS (text, []) (Or.inl ⟨p, hp, hsp⟩)
    exact review_risk_high hne

/-- Witness: a text containing an SSN is redacted clean and reviewed at
risk at least high. -/
theorem C7_redaction_clears_and_raises_risk_witness :
    (∀ p ∈ PII_PATTERNS,
      reSearch p.2 (CSO.review "see 123-45-6789 now".toList "web_fetch").redacted_text
        = false) ∧
    2 ≤ riskIndex (CSO.review "see 123-45-6789 now".toList "web_fetch").risk_level :=
  ⟨(C7_redaction_clears_and_raises_risk "see 123-45-6789 now".toList "web_fetch").1,
   (C7_redaction_clears_and_raises_risk "see 123-45-6789 now".toList "web_fetch").2
     (by decide)⟩

end TeamClaws
